import Mathlib

/-!
Verification of the markdown extension pipeline of the ATao-Blog repository.

The development shallowly embeds the relevant functions of
`src/components/Tabs.tsx` (the `processContent` preprocessing pipeline of the
`MarkdownRenderer`, its span-protection passes, the attribute parsers and the
ordered-list scanner) and of `src/components/Chat.tsx` (`parseChatContent`,
`getMinecraftAvatar`).  Documents are lists of characters; every JavaScript
regular-expression pass is hand-compiled into an executable scanner with the
same leftmost-match, global-replace semantics.
-/

set_option maxRecDepth 10000

namespace TBlog

/-! ### Character classes of the JavaScript regular expressions -/

/-- The backtick character. -/
def bq : Char := Char.ofNat 96

/-- The single-quote character. -/
def sq : Char := Char.ofNat 39

/-- The opening-brace character. -/
def obr : Char := Char.ofNat 123

/-- The closing-brace character. -/
def cbr : Char := Char.ofNat 125

/-- JavaScript whitespace: the character set matched by the class `\s`. -/
def jsSpace (c : Char) : Bool :=
  let n := c.toNat
  n == 32 || n == 9 || n == 10 || n == 13 || n == 11 || n == 12 ||
  n == 0xa0 || n == 0x1680 || decide (0x2000 ≤ n ∧ n ≤ 0x200a) ||
  n == 0x2028 || n == 0x2029 || n == 0x202f || n == 0x205f ||
  n == 0x3000 || n == 0xfeff

/-- ASCII decimal digit, the class `\d`. -/
def isDigitChar (c : Char) : Bool :=
  decide (48 ≤ c.toNat ∧ c.toNat ≤ 57)

/-- Word character, the class `\w`: ASCII letters, digits and underscore. -/
def isWordChar (c : Char) : Bool :=
  decide (65 ≤ c.toNat ∧ c.toNat ≤ 90) || decide (97 ≤ c.toNat ∧ c.toNat ≤ 122) ||
  isDigitChar c || c == '_'

/-- Single or double quote, the class `['"]`. -/
def isQuoteChar (c : Char) : Bool :=
  c == sq || c == '"'

/-- JavaScript line terminators (the characters the regex `.` does not match). -/
def isLineTerm (c : Char) : Bool :=
  c == '\n' || c == '\r' || c.toNat == 0x2028 || c.toNat == 0x2029

/-- ASCII lower-casing, as applied by `toLowerCase` on the inputs at hand. -/
def lowerChar (c : Char) : Char :=
  if decide (65 ≤ c.toNat ∧ c.toNat ≤ 90) then Char.ofNat (c.toNat + 32) else c

/-- Lower-case a character list. -/
def lowerL (l : List Char) : List Char := l.map lowerChar

/-- JavaScript `trimEnd`. -/
def trimEndL (l : List Char) : List Char :=
  (l.reverse.dropWhile jsSpace).reverse

/-- JavaScript `trim`. -/
def jsTrim (l : List Char) : List Char :=
  trimEndL (l.dropWhile jsSpace)

/-- Abbreviation turning a string literal into the character list it denotes. -/
def str (s : String) : List Char := s.toList

/-! ### Decimal digits (template interpolation and `parseInt`) -/

/-- The character of a decimal digit. -/
def digitChar (n : Nat) : Char := Char.ofNat (48 + n)

/-- Fuelled most-significant-first decimal digits. -/
def natDigitsAux : Nat → Nat → List Char
  | 0, _ => []
  | f + 1, n =>
    if n < 10 then [digitChar n]
    else natDigitsAux f (n / 10) ++ [digitChar (n % 10)]

/-- Decimal representation of a natural number, as `${n}` interpolates it. -/
def natDigits (n : Nat) : List Char := natDigitsAux (n + 1) n

/-- `parseInt` on a digit string. -/
def parseDigits (l : List Char) : Nat :=
  l.foldl (fun a c => a * 10 + (c.toNat - 48)) 0

theorem parseDigits_append (l : List Char) (c : Char) :
    parseDigits (l ++ [c]) = parseDigits l * 10 + (c.toNat - 48) := by
  simp [parseDigits]

theorem digitChar_toNat : ∀ d, d < 10 → (digitChar d).toNat = 48 + d := by decide

theorem isDigitChar_digitChar : ∀ d, d < 10 → isDigitChar (digitChar d) = true := by
  decide

theorem natDigitsAux_spec :
    ∀ fuel n, n < fuel →
      parseDigits (natDigitsAux fuel n) = n ∧ natDigitsAux fuel n ≠ [] ∧
      ∀ c ∈ natDigitsAux fuel n, isDigitChar c = true := by
  intro fuel
  induction fuel with
  | zero => intro n h; omega
  | succ f ih =>
    intro n h
    by_cases h10 : n < 10
    · refine ⟨?_, ?_, ?_⟩
      · have := digitChar_toNat n h10
        simp [natDigitsAux, h10, parseDigits]
        omega
      · simp [natDigitsAux, h10]
      · intro c hc
        simp [natDigitsAux, h10] at hc
        subst hc
        exact isDigitChar_digitChar n h10
    · have hn : n / 10 < f := by omega
      obtain ⟨h1, h2, h3⟩ := ih (n / 10) hn
      refine ⟨?_, ?_, ?_⟩
      · simp only [natDigitsAux, if_neg h10]
        rw [parseDigits_append, h1]
        have := digitChar_toNat (n % 10) (Nat.mod_lt n (by omega))
        omega
      · simp [natDigitsAux, h10]
      · intro c hc
        simp only [natDigitsAux, if_neg h10, List.mem_append, List.mem_singleton] at hc
        rcases hc with hc | hc
        · exact h3 c hc
        · subst hc
          exact isDigitChar_digitChar (n % 10) (Nat.mod_lt n (by omega))

/-- `parseInt` inverts decimal printing. -/
theorem parseDigits_natDigits (n : Nat) : parseDigits (natDigits n) = n :=
  (natDigitsAux_spec (n + 1) n (Nat.lt_succ_self n)).1

theorem natDigits_ne_nil (n : Nat) : natDigits n ≠ [] :=
  (natDigitsAux_spec (n + 1) n (Nat.lt_succ_self n)).2.1

theorem natDigits_digits (n : Nat) : ∀ c ∈ natDigits n, isDigitChar c = true :=
  (natDigitsAux_spec (n + 1) n (Nat.lt_succ_self n)).2.2

/-! ### Line splitting -/

/-- JavaScript `split(/\r?\n/)`. -/
def splitCRLF : List Char → List (List Char)
  | [] => [[]]
  | '\r' :: '\n' :: t => [] :: splitCRLF t
  | '\n' :: t => [] :: splitCRLF t
  | c :: t =>
    match splitCRLF t with
    | [] => [[c]]
    | l :: ls => (c :: l) :: ls

/-- JavaScript `split('\n')`. -/
def splitLF : List Char → List (List Char)
  | [] => [[]]
  | '\n' :: t => [] :: splitLF t
  | c :: t =>
    match splitLF t with
    | [] => [[c]]
    | l :: ls => (c :: l) :: ls

/-- `join('\n')`, the inverse direction. -/
def joinLF (ls : List (List Char)) : List Char :=
  List.intercalate ['\n'] ls

/-- Strip one trailing carriage return, the `replace(/\r$/, '')` step. -/
def dropTrailingCR (l : List Char) : List Char :=
  match l.getLast? with
  | some '\r' => l.dropLast
  | _ => l

/-! ### `encodeURIComponent` -/

/-- Upper-case hexadecimal digit. -/
def hexDigit (n : Nat) : Char :=
  if n < 10 then Char.ofNat (48 + n) else Char.ofNat (55 + n)

/-- Percent-escape of one byte. -/
def pctByte (b : Nat) : List Char := ['%', hexDigit (b / 16), hexDigit (b % 16)]

/-- UTF-8 bytes of a character. -/
def utf8Bytes (c : Char) : List Nat :=
  let n := c.toNat
  if n < 0x80 then [n]
  else if n < 0x800 then [0xc0 + n / 64, 0x80 + n % 64]
  else if n < 0x10000 then [0xe0 + n / 4096, 0x80 + n / 64 % 64, 0x80 + n % 64]
  else [0xf0 + n / 262144, 0x80 + n / 4096 % 64, 0x80 + n / 64 % 64, 0x80 + n % 64]

/-- The characters `encodeURIComponent` leaves unescaped. -/
def uriUnescaped (c : Char) : Bool :=
  decide (65 ≤ c.toNat ∧ c.toNat ≤ 90) || decide (97 ≤ c.toNat ∧ c.toNat ≤ 122) ||
  isDigitChar c || c == '-' || c == '_' || c == '.' || c == '!' || c == '~' ||
  c == '*' || c == sq || c == '(' || c == ')'

/-- `encodeURIComponent` over a character list. -/
def encodeURI (l : List Char) : List Char :=
  (l.map fun c => if uriUnescaped c then [c] else (utf8Bytes c).map pctByte |>.flatten).flatten

/-- `replace(/"/g, '&quot;')`. -/
def escQuot (l : List Char) : List Char :=
  (l.map fun c => if c == '"' then str ("&quot;") else [c]).flatten

/-! ### Attribute matchers

Each of the attribute regexes of the source has the shape
`key:` followed by `\s*` and a captured value; the search tries every
position of the subject and the first successful attempt wins, exactly as the
JavaScript engine does. -/

/-- Case-insensitively strip `key` from the front of `s`, returning the rest. -/
def ciStrip : List Char → List Char → Option (List Char)
  | [], s => some s
  | _ :: _, [] => none
  | k :: ks, c :: cs =>
    if lowerChar c == lowerChar k then ciStrip ks cs else none

/-- Case-sensitively strip `key` from the front of `s`, returning the rest
(for the regexes that carry no `i` flag). -/
def csStrip : List Char → List Char → Option (List Char)
  | [], s => some s
  | _ :: _, [] => none
  | k :: ks, c :: cs =>
    if c == k then csStrip ks cs else none

/-- Scan `s` for an occurrence of `key` (case-insensitive) at which `attempt`
succeeds on the remainder, as the regex engine scans for the first position
where the whole pattern matches. -/
def findKeyAttempt (key : List Char) (attempt : List Char → Option α) :
    List Char → Option α
  | [] =>
    match ciStrip key [] with
    | some rest => attempt rest
    | none => none
  | c :: t =>
    match ciStrip key (c :: t) with
    | some rest =>
      match attempt rest with
      | some v => some v
      | none => findKeyAttempt key attempt t
    | none => findKeyAttempt key attempt t

/-- Characters allowed in the captured group `[^,'"]+`. -/
def qbOk (d : Char) : Bool := !(d == ',' || isQuoteChar d)

/-- Value attempt for `/key:\s*['"]?([^,'"]+)['"]?/`, including the engine's
backtracking of `\s*` (yielding the last whitespace character as the capture)
when the character after the whitespace run cannot open the captured group. -/
def attemptQuoted (rest : List Char) : Option (List Char) :=
  match rest.dropWhile jsSpace with
  | [] => (rest.takeWhile jsSpace).getLast?.map ([·])
  | c :: r' =>
    if isQuoteChar c then
      if (r'.takeWhile qbOk).isEmpty then
        (rest.takeWhile jsSpace).getLast?.map ([·])
      else some (r'.takeWhile qbOk)
    else if c == ',' then (rest.takeWhile jsSpace).getLast?.map ([·])
    else some ((c :: r').takeWhile qbOk)

/-- Value attempt for `/key:\s*([^X]+)/` with stop set `X` (which never
contains whitespace), again with the `\s*` backtracking. -/
def attemptClass (stop : Char → Bool) (rest : List Char) : Option (List Char) :=
  let w := rest.takeWhile jsSpace
  let r := rest.dropWhile jsSpace
  match r with
  | [] => w.getLast?.map ([·])
  | c :: _ =>
    if stop c then w.getLast?.map ([·])
    else some (r.takeWhile (fun d => !stop d))

/-- Value attempt for `/key:\s*(\w+)/`. -/
def attemptWord (rest : List Char) : Option (List Char) :=
  let r := rest.dropWhile jsSpace
  let v := r.takeWhile isWordChar
  if v.isEmpty then none else some v

/-- The match of `/key:\s*['"]?([^,'"]+)['"]?/i` on `s`. -/
def attrQuoted (key : List Char) (s : List Char) : Option (List Char) :=
  findKeyAttempt (key ++ [':']) attemptQuoted s

/-- The match of `/key:\s*([^,}]+)/i` on `s`. -/
def attrCommaBrace (key : List Char) (s : List Char) : Option (List Char) :=
  findKeyAttempt (key ++ [':']) (attemptClass (fun c => c == ',' || c == cbr)) s

/-- The match of `/key:\s*(\w+)/i` on `s`. -/
def attrWord (key : List Char) (s : List Char) : Option (List Char) :=
  findKeyAttempt (key ++ [':']) attemptWord s

/-! ### `Chat.tsx`: `getMinecraftAvatar` and `parseChatContent` -/

/-- A chat participant: `{name, avatar?}`. -/
structure ChatPerson where
  name : String
  avatar : Option String
deriving Repr, DecidableEq

/-- A parsed chat message. -/
structure ChatMessage where
  person : ChatPerson
  content : String
deriving Repr, DecidableEq

/-- The Minecraft username pattern `/^[a-zA-Z0-9_]{3,16}$/`. -/
def minecraftNameOk (l : List Char) : Bool :=
  decide (3 ≤ l.length ∧ l.length ≤ 16) && l.all isWordChar

/-- `getMinecraftAvatar` of `Chat.tsx`: a derived avatar URL for a valid
Minecraft username, the empty string otherwise. -/
def getMinecraftAvatar (username : String) : String :=
  if minecraftNameOk username.toList then
    String.mk (str ("https://mc-heads.net/avatar/") ++ encodeURI username.toList)
  else ""

/-- Worker for `attemptLazyComma`; `acc` is the reversed capture so far. -/
def attemptLazyCommaGo (acc : List Char) : List Char → Option (List Char)
  | [] => if acc.isEmpty then none else some acc.reverse
  | c :: t =>
    if !acc.isEmpty && ((c :: t).dropWhile jsSpace).head? == some ',' then
      some acc.reverse
    else if c == ',' then none
    else attemptLazyCommaGo (c :: acc) t

/-- Value attempt for the fallback `/name:\s*([^,]+?)(?:\s*,\s*|$)/i`: the lazy
capture grows until the remainder is end-of-string or whitespace followed by a
comma. -/
def attemptLazyComma (rest : List Char) : Option (List Char) :=
  attemptLazyCommaGo [] (rest.dropWhile jsSpace)

/-- Value attempt for the last-resort `/name:\s*(\S+)/i`. -/
def attemptNonSpace (rest : List Char) : Option (List Char) :=
  let r := rest.dropWhile jsSpace
  let v := r.takeWhile (fun c => !jsSpace c)
  if v.isEmpty then none else some v

/-- The chained name extraction of `parseChatContent` (three regexes tried in
order). -/
def chatNameMatch (attrs : List Char) : Option (List Char) :=
  match attrQuoted (str ("name")) attrs with
  | some v => some v
  | none =>
    match findKeyAttempt (str ("name:")) attemptLazyComma attrs with
    | some v => some v
    | none => findKeyAttempt (str ("name:")) attemptNonSpace attrs

/-- Build the `ChatPerson` from the text after `@person`, following the
attribute extraction and the `avatar:minecraft` resolution of the source. -/
def parsePerson (attrs : List Char) : ChatPerson :=
  let name : String :=
    match chatNameMatch attrs with
    | some v => String.mk (jsTrim v)
    | none => "Unknown"
  let avatar0 : Option String :=
    (attrQuoted (str ("avatar")) attrs).map fun v => String.mk (jsTrim v)
  let avatar : Option String :=
    match avatar0 with
    | some a =>
      if a ≠ "" && String.mk (lowerL a.toList) == "minecraft" then
        let m := getMinecraftAvatar name
        if m ≠ "" then some m else none
      else some a
    | none => none
  ⟨name, avatar⟩

/-- The person-declaration line match `/^@person\s+(.+)$/` (no `i` flag, so
the marker is case-sensitive). -/
def personLineMatch (l : List Char) : Option (List Char) :=
  match csStrip (str ("@person")) l with
  | some rest =>
    let w := rest.takeWhile jsSpace
    let r := rest.dropWhile jsSpace
    if w.isEmpty || r.isEmpty || r.any isLineTerm then none else some r
  | none => none

/-- Flush the current message, mirroring the guarded `messages.push`. -/
def chatFlush (p : ChatPerson) (content : List (List Char))
    (msgs : List ChatMessage) : List ChatMessage :=
  let mc := jsTrim (joinLF content)
  if mc.isEmpty then msgs else msgs ++ [⟨p, String.mk mc⟩]

/-- The line loop of `parseChatContent`. -/
def chatGo : List (List Char) → Option ChatPerson → List (List Char) →
    List ChatMessage → List ChatMessage
  | [], p, content, msgs =>
    match p with
    | some per => if content.isEmpty then msgs else chatFlush per content msgs
    | none => msgs
  | l :: rest, p, content, msgs =>
    match personLineMatch l with
    | some attrsRaw =>
      let msgs' :=
        match p with
        | some per => chatFlush per content msgs
        | none => msgs
      let content' :=
        match p with
        | some _ => ([] : List (List Char))
        | none => content
      chatGo rest (some (parsePerson (jsTrim attrsRaw))) content' msgs'
    | none =>
      match p with
      | some _ => chatGo rest p (content ++ [l]) msgs
      | none => chatGo rest none content msgs

/-- `parseChatContent` of `Chat.tsx`. -/
def parseChatContent (content : String) : List ChatMessage :=
  if content == "" || (jsTrim content.toList).isEmpty then []
  else
    let lines := (splitCRLF content.toList).map fun l => trimEndL (dropTrailingCR l)
    chatGo lines none [] []

/-! ### `parseOrderedListNumbers` of `Tabs.tsx` -/

/-- The fence-line match `/^(`+3 or ~+3)/`: the maximal run when the line
starts with at least three identical fence characters. -/
def fenceOf (l : List Char) : Option (List Char) :=
  let b := l.takeWhile (· == bq)
  if 3 ≤ b.length then some b
  else
    let t := l.takeWhile (· == '~')
    if 3 ≤ t.length then some t else none

/-- The ordered-list line match `/^(\s*)(\d+)\.\s+/`, returning
`(number, indent)`. -/
def olLineMatch (l : List Char) : Option (Nat × Nat) :=
  let ind := l.takeWhile jsSpace
  let r := l.dropWhile jsSpace
  let ds := r.takeWhile isDigitChar
  if ds.isEmpty then none
  else
    match r.drop ds.length with
    | '.' :: r2 =>
      if (r2.takeWhile jsSpace).isEmpty then none
      else some (parseDigits ds, ind.length)
    | _ => none

/-- The line loop of `parseOrderedListNumbers`; the second argument is the
tracked `codeBlockFence` (`none` when outside a fenced block). -/
def polGo : List (List Char) → Option (List Char) → List (Nat × Nat)
  | [], _ => []
  | l :: t, fence =>
    match fenceOf l, fence with
    | some f, none => polGo t (some f)
    | some _, some f => if f.isPrefixOf l then polGo t none else polGo t (some f)
    | none, some f => polGo t (some f)
    | none, none =>
      match olLineMatch l with
      | some p => p :: polGo t none
      | none => polGo t none

/-- `parseOrderedListNumbers` of `Tabs.tsx`: source-order `(number, indent)`
pairs of every ordered-list line outside fenced code blocks. -/
def parseOrderedListNumbers (content : String) : List (Nat × Nat) :=
  polGo (splitLF content.toList) none

/-! ### Span protection: fence and inline-code matchers -/

/-- The `___CODE_BLOCK_` token prefix of the second protection pass. -/
def tokCB : List Char := str ("___CODE_BLOCK_")

/-- Placeholder `___CODE_BLOCK_${i}___`. -/
def phC (i : Nat) : List Char := tokCB ++ natDigits i ++ str ("___")

/-- The token prefix of the first (indentation-fix) protection pass. -/
def tokP0 : List Char := str ("___CODE_BLOCK_PLACEHOLDER_")

/-- Placeholder `___CODE_BLOCK_PLACEHOLDER_${i}___`. -/
def phP0 (i : Nat) : List Char := tokP0 ++ natDigits i ++ str ("___")

/-- Does `pat` occur as a contiguous substring (the `includes` test)? -/
def containsSub (pat : List Char) : List Char → Bool
  | [] => pat.isEmpty
  | s@(_ :: t) => pat.isPrefixOf s || containsSub pat t

/-- Earliest split of the subject at a run of `L` copies of `f` (the lazy
`([\s\S]*?)` against the back-reference `\2`): returns the content before the
run and the rest after its first `L` characters. -/
def findRunSplit (f : Char) (L : Nat) : List Char → Option (List Char × List Char)
  | [] => if (List.replicate L f).isPrefixOf [] then some ([], []) else none
  | s@(c :: t) =>
    if (List.replicate L f).isPrefixOf s then some ([], s.drop L)
    else (findRunSplit f L t).map fun p => (c :: p.1, p.2)

/-- Backtracking over the greedy fence length: try `L` from `n` down to `3`,
searching `f^(n-L) ++ tail` for a closing run. -/
def fenceCloseGo (f : Char) (n : Nat) (tail : List Char) :
    Nat → Option (Nat × List Char × List Char)
  | 0 => none
  | lm2 + 1 =>
    match findRunSplit f (lm2 + 3) (List.replicate (n - (lm2 + 3)) f ++ tail) with
    | some (content, rest) => some (lm2 + 3, content, rest)
    | none => fenceCloseGo f n tail lm2

/-- Close a fence opened by a run of `n` copies of `f`. -/
def fenceClose (f : Char) (n : Nat) (tail : List Char) :
    Option (Nat × List Char × List Char) :=
  if n < 3 then none else fenceCloseGo f n tail (n - 2)

/-- Fence match at the current position (after the `(^|\n)` prefix): the body
of `/(^|\n)(X{3,})([\s\S]*?)\2/` where `X` is a backtick, or also a tilde when
`allowTilde` is set.  Returns the matched text (without prefix) and the rest. -/
def fencedTry (allowTilde : Bool) (s : List Char) : Option (List Char × List Char) :=
  match s with
  | [] => none
  | c :: _ =>
    if c == bq || (allowTilde && c == '~') then
      let run := s.takeWhile (· == c)
      let n := run.length
      match fenceClose c n (s.drop n) with
      | some (L, content, rest) =>
        some (List.replicate L c ++ content ++ List.replicate L c, rest)
      | none => none
    else none

/-- Inline-code match `/(`+)([^`\n]+?)\1/` at the current position. -/
def inlineTry (s : List Char) : Option (List Char × List Char) :=
  match s with
  | [] => none
  | c :: _ =>
    if c == bq then
      let run := s.takeWhile (· == bq)
      let n := run.length
      let afterRun := s.drop n
      let content := afterRun.takeWhile fun d => d != bq && d != '\n'
      if content.isEmpty then none
      else
        let rest2 := afterRun.drop content.length
        if (List.replicate n bq).isPrefixOf rest2 then
          some (run ++ content ++ List.replicate n bq, rest2.drop n)
        else none
    else none

/-! ### The three span-protection scanners -/

/-- First protection pass (before the indentation fix): both fence characters,
and the whole match — including the leading newline — is stored while the
replacement is the bare placeholder. -/
def pass0Go : Nat → Bool → List Char → List (List Char) →
    List Char × List (List Char)
  | 0, _, s, acc => (s, acc)
  | _ + 1, _, [], acc => ([], acc)
  | fuel + 1, first, s@(c :: t), acc =>
    match (if first then fencedTry true s else none) with
    | some (m, rest) =>
      let out := pass0Go fuel false rest (acc ++ [m])
      (phP0 acc.length ++ out.1, out.2)
    | none =>
      match (if c == '\n' then fencedTry true t else none) with
      | some (m, rest) =>
        let out := pass0Go fuel false rest (acc ++ [('\n' :: m)])
        (phP0 acc.length ++ out.1, out.2)
      | none =>
        let out := pass0Go fuel false t acc
        (c :: out.1, out.2)

/-- Run the first protection pass. -/
def pass0 (s : List Char) : List Char × List (List Char) :=
  pass0Go (s.length + 1) true s []

/-- Second protection pass (backtick fences only): the leading newline is kept
in the output and the stored text excludes it. -/
def protectFencedGo : Nat → Bool → List Char → List (List Char) →
    List Char × List (List Char)
  | 0, _, s, acc => (s, acc)
  | _ + 1, _, [], acc => ([], acc)
  | fuel + 1, first, s@(c :: t), acc =>
    match (if first then fencedTry false s else none) with
    | some (m, rest) =>
      let out := protectFencedGo fuel false rest (acc ++ [m])
      (phC acc.length ++ out.1, out.2)
    | none =>
      match (if c == '\n' then fencedTry false t else none) with
      | some (m, rest) =>
        let out := protectFencedGo fuel false rest (acc ++ [m])
        ('\n' :: (phC acc.length ++ out.1), out.2)
      | none =>
        let out := protectFencedGo fuel false t acc
        (c :: out.1, out.2)

/-- Run the backtick-fence protection pass. -/
def protectFenced (s : List Char) (acc : List (List Char)) :
    List Char × List (List Char) :=
  protectFencedGo (s.length + 1) true s acc

/-- Inline-code protection pass, with the guard that leaves a match containing
`___CODE_BLOCK_` untouched. -/
def protectInlineGo : Nat → List Char → List (List Char) →
    List Char × List (List Char)
  | 0, s, acc => (s, acc)
  | _ + 1, [], acc => ([], acc)
  | fuel + 1, s@(c :: t), acc =>
    match inlineTry s with
    | some (m, rest) =>
      if containsSub tokCB m then
        let out := protectInlineGo fuel rest acc
        (m ++ out.1, out.2)
      else
        let out := protectInlineGo fuel rest (acc ++ [m])
        (phC acc.length ++ out.1, out.2)
    | none =>
      let out := protectInlineGo fuel t acc
      (c :: out.1, out.2)

/-- Run the inline-code protection pass. -/
def protectInline (s : List Char) (acc : List (List Char)) :
    List Char × List (List Char) :=
  protectInlineGo (s.length + 1) s acc

/-! ### Restoration -/

/-- Token match `/___CODE_BLOCK_(\d+)___/` at the current position. -/
def tokenTry (s : List Char) : Option (Nat × List Char) :=
  if tokCB.isPrefixOf s then
    let after := s.drop tokCB.length
    let ds := after.takeWhile isDigitChar
    if ds.isEmpty then none
    else
      let after2 := after.drop ds.length
      if (str ("___")).isPrefixOf after2 then
        some (parseDigits ds, after2.drop 3)
      else none
  else none

/-- The final backward-substitution scanner over the output string; an index
out of range reproduces JavaScript's `String(undefined)`. -/
def restoreGo (blocks : List (List Char)) : Nat → List Char → List Char
  | 0, s => s
  | _ + 1, [] => []
  | fuel + 1, s@(c :: t) =>
    match tokenTry s with
    | some (i, rest) =>
      ((blocks.get? i).getD (str ("undefined"))) ++ restoreGo blocks fuel rest
    | none => c :: restoreGo blocks fuel t

/-- `replace(/___CODE_BLOCK_(\d+)___/g, (m, id) => codeBlocks[parseInt(id)])`. -/
def restoreBlocks (s : List Char) (blocks : List (List Char)) : List Char :=
  restoreGo blocks (s.length + 1) s

/-- Replace the first occurrence of `pat` (the string-pattern `replace`). -/
def replaceFirst (pat rep : List Char) : List Char → List Char
  | [] => []
  | s@(c :: t) =>
    if pat.isPrefixOf s then rep ++ s.drop pat.length
    else c :: replaceFirst pat rep t

/-- Restore the first-pass placeholders in insertion order. -/
def restorePass0 (s : List Char) (blocks : List (List Char)) : List Char :=
  blocks.enum.foldl (fun r p => replaceFirst (phP0 p.1) p.2 r) s

/-! ### The nested-list indentation fix -/

/-- The list-line match `/^(\s*)(\d+\.\s+.*)$/`, returning the indentation and
the content group. -/
def listLineMatch (l : List Char) : Option (List Char × List Char) :=
  let ind := l.takeWhile jsSpace
  let r := l.dropWhile jsSpace
  let ds := r.takeWhile isDigitChar
  if ds.isEmpty then none
  else
    match r.drop ds.length with
    | '.' :: r2 =>
      let w2 := r2.takeWhile jsSpace
      if w2.isEmpty then none
      else if (r2.drop w2.length).any isLineTerm then none
      else some (ind, r)
    | _ => none

/-- One step of the indentation-fix loop; `prev` is the previous original
line. -/
def indentFixGo : List (List Char) → Option (List Char) → List (List Char)
  | [], _ => []
  | l :: t, prev =>
    match listLineMatch l with
    | some (ind, content) =>
      let indentLength := ind.length
      let prevM := prev.bind listLineMatch
      let prevIndent := match prevM with | some p => p.1.length | none => 0
      let blankIns : List (List Char) :=
        if indentLength > 0 && prevM.isSome && decide (prevIndent < indentLength) &&
            !(jsTrim (prev.getD [])).isEmpty then [[]]
        else []
      let fixed :=
        if indentLength == 0 then l
        else if decide (2 ≤ indentLength) && decide (indentLength ≤ 4) then
          List.replicate 4 ' ' ++ content
        else if decide (5 ≤ indentLength) && decide (indentLength ≤ 6) then
          List.replicate 7 ' ' ++ content
        else l
      blankIns ++ fixed :: indentFixGo t (some l)
    | none => l :: indentFixGo t (some l)

/-! ### Generic global-replace scanner -/

/-- Fuelled leftmost global replace: at each position either a match is
consumed and its replacement emitted, or one character is copied. -/
def scanRepl (tryM : List Char → Option (List Char × List Char)) :
    Nat → List Char → List Char
  | 0, s => s
  | _ + 1, [] => []
  | fuel + 1, s@(c :: t) =>
    match tryM s with
    | some (rep, rest) => rep ++ scanRepl tryM fuel rest
    | none => c :: scanRepl tryM fuel t

/-- Run a global-replace pass. -/
def runPass (tryM : List Char → Option (List Char × List Char))
    (s : List Char) : List Char :=
  scanRepl tryM (s.length + 1) s

/-- Earliest occurrence of the literal `pat`: content before and rest after. -/
def findSub (pat : List Char) : List Char → Option (List Char × List Char)
  | [] => if pat.isEmpty then some ([], []) else none
  | s@(c :: t) =>
    if pat.isPrefixOf s then some ([], s.drop pat.length)
    else (findSub pat t).map fun p => (c :: p.1, p.2)

/-- Earliest match of the closing `\r?\n:::`. -/
def findNlClose : List Char → Option (List Char × List Char)
  | [] => none
  | s@(c :: t) =>
    if (str ("\r\n:::")).isPrefixOf s then some ([], s.drop 5)
    else if (str ("\n:::")).isPrefixOf s then some ([], s.drop 4)
    else (findNlClose t).map fun p => (c :: p.1, p.2)

/-- The opener `\s*\r?\n` after a block head: the greedy whitespace run must
contain a newline, and the body resumes after its last newline. -/
def wsNlOpen (s : List Char) : Option (List Char) :=
  let w := s.takeWhile jsSpace
  let r := s.dropWhile jsSpace
  if w.contains '\n' then
    some ((w.reverse.takeWhile (fun c => c != '\n')).reverse ++ r)
  else none

/-! ### Attribute record parsers (`parseVideoAttrs`, `parseAlertAttrs`) -/

/-- First index at which `key` occurs case-insensitively (`String.search`). -/
def searchCI (key : List Char) : List Char → Option Nat
  | [] => if (ciStrip key []).isSome then some 0 else none
  | s@(_ :: t) =>
    if (ciStrip key s).isSome then some 0
    else (searchCI key t).map (· + 1)

/-- Match of the caption-trimming regex `/\s*,\s*(k₁|k₂|…):.*$/i` at one
position. -/
def cutHere (keys : List (List Char)) (t : List Char) : Bool :=
  let t1 := t.dropWhile jsSpace
  match t1 with
  | ',' :: t2 =>
    let t3 := t2.dropWhile jsSpace
    keys.any fun k =>
      match ciStrip (k ++ [':']) t3 with
      | some t4 => !t4.any isLineTerm
      | none => false
  | _ => false

/-- Earliest position of the caption-trimming regex. -/
def findCut (keys : List (List Char)) : List Char → Option Nat
  | [] => none
  | s@(_ :: t) =>
    if cutHere keys s then some 0 else (findCut keys t).map (· + 1)

/-- `afterCaption.replace(/\s*,\s*(keys):.*$/i, '')`. -/
def cutTail (keys : List (List Char)) (l : List Char) : List Char :=
  match findCut keys l with
  | some i => l.take i
  | none => l

/-- The free-text caption extraction: `search(/caption:\s*/i)`, `substring(+8)`
and the trailing-key cut. -/
def captionExtract (keys : List (List Char)) (attrs : List Char) : List Char :=
  match searchCI (str ("caption:")) attrs with
  | some p => jsTrim (cutTail keys (attrs.drop (p + 8)))
  | none => []

/-- The parsed video attributes. -/
structure VideoAttrs where
  width : List Char
  align : List Char
  autoplay : Bool
  controls : Bool
  loopFlag : Bool
  muted : Bool
  caption : List Char
deriving Repr, DecidableEq

/-- The keys recognised when trimming a video caption. -/
def videoCutKeys : List (List Char) :=
  [str ("align"), str ("width"), str ("autoplay"), str ("controls"),
   str ("loop"), str ("muted")]

/-- `parseVideoAttrs` of `Tabs.tsx`. -/
def parseVideoAttrs (attrs : List Char) : VideoAttrs :=
  let widthMatch := attrCommaBrace (str ("width")) attrs
  let alignMatch := attrWord (str ("align")) attrs
  let autoplayMatch := attrWord (str ("autoplay")) attrs
  let controlsMatch := attrWord (str ("controls")) attrs
  let loopMatch := attrWord (str ("loop")) attrs
  let mutedMatch := attrWord (str ("muted")) attrs
  { width := (widthMatch.map jsTrim).getD []
    align := (alignMatch.map lowerL).getD (str ("center"))
    autoplay := match autoplayMatch with
      | some v => lowerL v == str ("true")
      | none => false
    controls := match controlsMatch with
      | some v => lowerL v != str ("false")
      | none => true
    loopFlag := match loopMatch with
      | some v => lowerL v == str ("true")
      | none => false
    muted := match mutedMatch with
      | some v => lowerL v == str ("true")
      | none => false
    caption := captionExtract videoCutKeys attrs }

/-- `data-video-*` carrier attributes (`buildVideoAttrs`). -/
def buildVideoAttrs (url : List Char) (a : VideoAttrs) : List Char :=
  str ("data-video-url=\"") ++ escQuot url ++ str ("\"") ++
  str (" data-video-align=\"") ++ a.align ++ str ("\"") ++
  (if !a.width.isEmpty then str (" data-video-width=\"") ++ a.width ++ str ("\"") else []) ++
  (if a.autoplay then str (" data-video-autoplay=\"true\"") else []) ++
  (if !a.controls then str (" data-video-controls=\"false\"") else []) ++
  (if a.loopFlag then str (" data-video-loop=\"true\"") else []) ++
  (if a.muted then str (" data-video-muted=\"true\"") else []) ++
  (if !a.caption.isEmpty then
    str (" data-video-caption=\"") ++ escQuot a.caption ++ str ("\"") else [])

/-- The valid alert types. -/
def validAlertTypes : List (List Char) :=
  [str ("info"), str ("success"), str ("warning"), str ("error")]

/-- `parseAlertAttrs` of `Tabs.tsx`: `(normalizedType, title)`. -/
def parseAlertAttrs (attrs : List Char) : List Char × List Char :=
  let typeMatch := attrWord (str ("type")) attrs
  let titleMatch := attrCommaBrace (str ("title")) attrs
  let ty := (typeMatch.map lowerL).getD (str ("info"))
  let normalized := if validAlertTypes.contains ty then ty else str ("info")
  (normalized, (titleMatch.map jsTrim).getD [])

/-- `buildAlertHtml` of `Tabs.tsx`. -/
def buildAlertHtml (ty title content : List Char) : List Char :=
  let titleAttr :=
    if !title.isEmpty then
      str (" data-alert-title=\"") ++ escQuot title ++ str ("\"")
    else []
  str ("\n<div data-alert-type=\"") ++ ty ++ str ("\"") ++ titleAttr ++
  str (" class=\"alert-block alert-") ++ ty ++ str ("\">\n\n") ++ content ++
  str ("\n\n</div>\n")

/-! ### Block-extraction pass matchers -/

/-- The unchanged-match result: the consumed text is re-emitted verbatim. -/
def keepMatch (s rest : List Char) : Option (List Char × List Char) :=
  some (s.take (s.length - rest.length), rest)

/-- `/:::chart\s*\r?\n([\s\S]*?)\r?\n:::/g`. -/
def chartTry (s : List Char) : Option (List Char × List Char) :=
  if (str (":::chart")).isPrefixOf s then
    match wsNlOpen (s.drop 8) with
    | some body =>
      match findNlClose body with
      | some (content, rest) =>
        some (str ("<div data-chart-type=\"echarts\" data-chart-data=\"") ++
          encodeURI (jsTrim content) ++ str ("\"></div>"), rest)
      | none => none
    | none => none
  else none

/-- Strip `{attrs}` (`[^}]*`) and the closing brace after a block head. -/
def braceAttrs (afterO : List Char) : Option (List Char × List Char) :=
  let attrs := afterO.takeWhile (· != cbr)
  match afterO.drop attrs.length with
  | c :: rest => if c == cbr then some (attrs, rest) else none
  | [] => none

/-- The `\r?\n` immediately after the closing brace of a multi-line block. -/
def nlAfter (s : List Char) : Option (List Char) :=
  match s with
  | '\r' :: '\n' :: t => some t
  | '\n' :: t => some t
  | _ => none

/-- `/:::video\{([^}]*)\}\r?\n([\s\S]*?)\r?\n:::/g`. -/
def videoTry1 (s : List Char) : Option (List Char × List Char) :=
  if (str (":::video") ++ [obr]).isPrefixOf s then
    match braceAttrs (s.drop 9) with
    | some (attrs, r1) =>
      match nlAfter r1 with
      | some body =>
        match findNlClose body with
        | some (url, rest) =>
          let cleanUrl := jsTrim url
          if cleanUrl.isEmpty then keepMatch s rest
          else
            some (str ("<div ") ++ buildVideoAttrs cleanUrl (parseVideoAttrs attrs) ++
              str (" class=\"video-block\"></div>"), rest)
        | none => none
      | none => none
    | none => none
  else none

/-- The single-line body: lazy `([^\n]+?)` up to the earliest `:::`. -/
def inlineBodyClose (r : List Char) : Option (List Char × List Char) :=
  let seg := r.takeWhile (· != '\n')
  match seg with
  | [] => none
  | c :: segT =>
    match findSub (str (":::")) segT with
    | some (b, _) =>
      let p := 1 + b.length
      some (c :: b, r.drop (p + 3))
    | none => none

/-- `/:::video\{([^}]*)\}([^\n]+?):::/g`. -/
def videoTry2 (s : List Char) : Option (List Char × List Char) :=
  if (str (":::video") ++ [obr]).isPrefixOf s then
    match braceAttrs (s.drop 9) with
    | some (attrs, r1) =>
      match inlineBodyClose r1 with
      | some (url, rest) =>
        let cleanUrl := jsTrim url
        if cleanUrl.isEmpty then keepMatch s rest
        else
          some (str ("<div ") ++ buildVideoAttrs cleanUrl (parseVideoAttrs attrs) ++
            str (" class=\"video-block\"></div>"), rest)
      | none => none
    | none => none
  else none

/-- `/:::alert\{([^}]*)\}\r?\n([\s\S]*?)\r?\n:::/g`. -/
def alertTry1 (s : List Char) : Option (List Char × List Char) :=
  if (str (":::alert") ++ [obr]).isPrefixOf s then
    match braceAttrs (s.drop 9) with
    | some (attrs, r1) =>
      match nlAfter r1 with
      | some body =>
        match findNlClose body with
        | some (content, rest) =>
          let clean := jsTrim content
          if clean.isEmpty then keepMatch s rest
          else
            let pa := parseAlertAttrs attrs
            some (buildAlertHtml pa.1 pa.2 clean, rest)
        | none => none
      | none => none
    | none => none
  else none

/-- `/:::alert\{([^}]*)\}([^\n]+?):::/g`. -/
def alertTry2 (s : List Char) : Option (List Char × List Char) :=
  if (str (":::alert") ++ [obr]).isPrefixOf s then
    match braceAttrs (s.drop 9) with
    | some (attrs, r1) =>
      match inlineBodyClose r1 with
      | some (content, rest) =>
        let clean := jsTrim content
        if clean.isEmpty then keepMatch s rest
        else
          let pa := parseAlertAttrs attrs
          some (buildAlertHtml pa.1 pa.2 clean, rest)
      | none => none
    | none => none
  else none

/-- `/==([^=]+)==/g` into a `<mark>` wrapper. -/
def highlightTry (s : List Char) : Option (List Char × List Char) :=
  if (str ("==")).isPrefixOf s then
    let content := (s.drop 2).takeWhile (· != '=')
    if content.isEmpty then none
    else
      let rest := s.drop (2 + content.length)
      if (str ("==")).isPrefixOf rest then
        some (str ("<mark>") ++ content ++ str ("</mark>"), rest.drop 2)
      else none
  else none

/-- `/\^([^^]+)\^/g` into a `<sup>` wrapper. -/
def supTry (s : List Char) : Option (List Char × List Char) :=
  match s with
  | '^' :: t =>
    let content := t.takeWhile (· != '^')
    if content.isEmpty then none
    else
      match t.drop content.length with
      | '^' :: rest => some (str ("<sup>") ++ content ++ str ("</sup>"), rest)
      | _ => none
  | _ => none

/-- The subscript pass `/(?<!~)~([^~\n]+)~(?!~)/g`, scanning with the original
previous character for the lookbehind. -/
def subGo : Nat → Option Char → List Char → List Char
  | 0, _, s => s
  | _ + 1, _, [] => []
  | fuel + 1, prev, c :: t =>
    if c == '~' && prev != some '~' then
      let content := t.takeWhile fun d => d != '~' && d != '\n'
      let r := t.drop content.length
      if content.isEmpty then c :: subGo fuel (some c) t
      else
        match r with
        | '~' :: r2 =>
          if r2.head? == some '~' then c :: subGo fuel (some c) t
          else str ("<sub>") ++ content ++ str ("</sub>") ++ subGo fuel (some '~') r2
        | _ => c :: subGo fuel (some c) t
    else c :: subGo fuel (some c) t

/-- Run the subscript pass. -/
def subPass (s : List Char) : List Char :=
  subGo (s.length + 1) none s

/-- The keys recognised when trimming an image caption. -/
def imageCutKeys : List (List Char) := [str ("align"), str ("width")]

/-- `/!\[([^\]]*)\]\(([^)]+)\)\s*\{([^}]+)\}/g`: attributed images. -/
def imageTry (s : List Char) : Option (List Char × List Char) :=
  if (str ("![")).isPrefixOf s then
    let a1 := s.drop 2
    let alt := a1.takeWhile (· != ']')
    match a1.drop alt.length with
    | ']' :: '(' :: a2 =>
      let url := a2.takeWhile (· != ')')
      if url.isEmpty then none
      else
        match a2.drop url.length with
        | ')' :: a3 =>
          let a4 := a3.dropWhile jsSpace
          match a4 with
          | c :: a5 =>
            if c == obr then
              let attrs := a5.takeWhile (· != cbr)
              if attrs.isEmpty then none
              else
                match a5.drop attrs.length with
                | d :: a6 =>
                  if d == cbr then
                    let align := ((attrWord (str ("align")) attrs).map lowerL).getD
                      (str ("center"))
                    let width := ((attrCommaBrace (str ("width")) attrs).map jsTrim).getD []
                    let caption := captionExtract imageCutKeys attrs
                    let dataAttrs :=
                      str ("data-image-align=\"") ++ align ++ str ("\"") ++
                      (if !width.isEmpty then
                        str (" data-image-width=\"") ++ width ++ str ("\"") else []) ++
                      (if !caption.isEmpty then
                        str (" data-image-caption=\"") ++ escQuot caption ++ str ("\"")
                      else [])
                    some (str ("<img src=\"") ++ url ++ str ("\" alt=\"") ++
                      escQuot alt ++ str ("\" ") ++ dataAttrs ++ str (" />"), a6)
                  else none
                | [] => none
            else none
          | [] => none
        | _ => none
    | _ => none
  else none

/-- Terminator attempt of the titled-link pattern: `\s+"([^"]+)"\)` at the
current remainder. -/
def titledTerm (rem : List Char) : Option (List Char × List Char) :=
  let w := rem.takeWhile jsSpace
  if w.isEmpty then none
  else
    match rem.drop w.length with
    | '"' :: r2 =>
      let ttl := r2.takeWhile (· != '"')
      if ttl.isEmpty then none
      else
        match r2.drop ttl.length with
        | '"' :: ')' :: r4 => some (ttl, r4)
        | _ => none
    | _ => none

/-- Lazy growth of the `([^)]+?)` URL group of the titled-link pattern. -/
def titledScan : List Char → List Char → Option (List Char × List Char × List Char)
  | acc, rem =>
    if !acc.isEmpty then
      match titledTerm rem with
      | some (ttl, r4) => some (acc.reverse, ttl, r4)
      | none =>
        match rem with
        | c :: t => if c == ')' then none else titledScan (c :: acc) t
        | [] => none
    else
      match rem with
      | c :: t => if c == ')' then none else titledScan (c :: acc) t
      | [] => none

/-- `/\[([^\]]+)\]\(([^)]+?)\s+"([^"]+)"\)/g`: links with titles. -/
def titledLinkTry (s : List Char) : Option (List Char × List Char) :=
  match s with
  | '[' :: a1 =>
    let text := a1.takeWhile (· != ']')
    if text.isEmpty then none
    else
      match a1.drop text.length with
      | ']' :: '(' :: a2 =>
        match titledScan [] a2 with
        | some (url, ttl, rest) =>
          let escapedTitle :=
            ((escQuot ttl).map fun c => if c == sq then str ("&#39;") else [c]).flatten
          some (str ("<a href=\"") ++ url ++ str ("\" data-link-title=\"") ++
            escapedTitle ++ str ("\">") ++ text ++ str ("</a>"), rest)
        | none => none
      | _ => none
  | _ => none

/-- `/:::chat\s*\r?\n([\s\S]*?)\r?\n:::/g`: the strict chat extraction. -/
def chatTry1 (s : List Char) : Option (List Char × List Char) :=
  if (str (":::chat")).isPrefixOf s then
    match wsNlOpen (s.drop 7) with
    | some body =>
      match findNlClose body with
      | some (content, rest) =>
        let trimmed := jsTrim content
        if trimmed.isEmpty then keepMatch s rest
        else
          some (str ("<div data-chat=\"true\" data-chat-content=\"") ++
            encodeURI trimmed ++ str ("\"></div>"), rest)
      | none => none
    | none => none
  else none

/-- Earliest position of `/:::\s*$/` in `l` (the trailing-fence strip). -/
def fenceEndIdx : List Char → Option Nat
  | [] => none
  | s@(_ :: t) =>
    if (str (":::")).isPrefixOf s && (s.drop 3).all jsSpace then some 0
    else (fenceEndIdx t).map (· + 1)

/-- `content.replace(/:::\s*$/, '')`. -/
def stripFenceEnd (l : List Char) : List Char :=
  match fenceEndIdx l with
  | some i => l.take i
  | none => l

/-- `/:::chat\s*\r?\n([\s\S]*?):::/g`: the relaxed chat extraction, with the
already-processed guard. -/
def chatTry2 (s : List Char) : Option (List Char × List Char) :=
  if (str (":::chat")).isPrefixOf s then
    match wsNlOpen (s.drop 7) with
    | some body =>
      match findSub (str (":::")) body with
      | some (content, rest) =>
        let m := s.take (s.length - rest.length)
        if containsSub (str ("data-chat=\"true\"")) m then keepMatch s rest
        else
          let clean := jsTrim (stripFenceEnd content)
          if clean.isEmpty then keepMatch s rest
          else
            some (str ("<div data-chat=\"true\" data-chat-content=\"") ++
              encodeURI clean ++ str ("\"></div>"), rest)
      | none => none
    | none => none
  else none

/-! ### `@tab` / `@item` splitting -/

/-- Backtracking over the greedy `\s+` of `/@tab\s+([^\n\r]+)\r?\n/`: try the
whitespace length from the maximum down to one. -/
def atMarkerWs (afterM : List Char) : Nat → Option (List Char × List Char)
  | 0 => none
  | j + 1 =>
    let t := afterM.drop (j + 1)
    let label := t.takeWhile fun c => c != '\n' && c != '\r'
    if label.isEmpty then atMarkerWs afterM j
    else
      match t.drop label.length with
      | '\r' :: '\n' :: r2 => some (label, r2)
      | '\n' :: r2 => some (label, r2)
      | _ => atMarkerWs afterM j

/-- Match of `/marker\s+([^\n\r]+)\r?\n/` at the current position. -/
def atMarkerTry (marker : List Char) (s : List Char) :
    Option (List Char × List Char) :=
  if marker.isPrefixOf s then
    let afterM := s.drop marker.length
    atMarkerWs afterM (afterM.takeWhile jsSpace).length
  else none

/-- `split(/marker\s+([^\n\r]+)\r?\n/)`: the text before the first match and
the `(label, segment)` pairs. -/
def atSplitGo (marker : List Char) :
    Nat → List Char → List Char × List (List Char × List Char)
  | 0, s => (s, [])
  | _ + 1, [] => ([], [])
  | fuel + 1, s@(c :: t) =>
    match atMarkerTry marker s with
    | some (label, rest) =>
      let out := atSplitGo marker fuel rest
      ([], (label, out.1) :: out.2)
    | none =>
      let out := atSplitGo marker fuel t
      (c :: out.1, out.2)

/-- Run the marker split. -/
def atSplit (marker : List Char) (s : List Char) :
    List Char × List (List Char × List Char) :=
  atSplitGo marker (s.length + 1) s

/-- `/:::tabs\s*\r?\n([\s\S]*?):::/g`, parameterised by the code-block store
used to restore placeholders inside each pane before encoding. -/
def tabsTry (cbs : List (List Char)) (s : List Char) :
    Option (List Char × List Char) :=
  if (str (":::tabs")).isPrefixOf s then
    match wsNlOpen (s.drop 7) with
    | some body =>
      match findSub (str (":::")) body with
      | some (content, rest) =>
        let pairs := (atSplit (str ("@tab")) content).2
        let items := pairs.map fun p =>
          let tabContent := restoreBlocks p.2 cbs
          str ("<div data-tab-label=\"") ++ escQuot (jsTrim p.1) ++
          str ("\" data-tab-content=\"") ++ encodeURI tabContent ++
          str ("\"></div>\n")
        some (str ("<div data-tabs=\"true\">\n") ++ items.flatten ++
          str ("</div>"), rest)
      | none => none
    | none => none
  else none

/-- `/^\d{4}[-\/]\d{1,2}[-\/]\d{1,2}/.test(header)`. -/
def testDateFull (h : List Char) : Bool :=
  let d4 := h.take 4
  if d4.length == 4 && d4.all isDigitChar then
    match h.drop 4 with
    | c :: rest =>
      (c == '-' || c == '/') &&
      (let ds := rest.takeWhile isDigitChar
       let check := fun i =>
         decide (i ≤ ds.length) &&
         (match rest.drop i with
          | d :: r2 => (d == '-' || d == '/') &&
            !(r2.takeWhile isDigitChar).isEmpty
          | [] => false)
       check 2 || check 1)
    | [] => false
  else false

/-- `/^\d{4}/.test(header)`. -/
def testDateYear (h : List Char) : Bool :=
  let d4 := h.take 4
  d4.length == 4 && d4.all isDigitChar

/-- `split('|')`. -/
def splitPipe : List Char → List (List Char)
  | [] => [[]]
  | '|' :: t => [] :: splitPipe t
  | c :: t =>
    match splitPipe t with
    | [] => [[c]]
    | l :: ls => (c :: l) :: ls

/-- Parse an `@item` header into `(date, title)`. -/
def timelineHeader (header : List Char) : List Char × List Char :=
  if header.contains '|' then
    let parts := (splitPipe header).map jsTrim
    let datePart := parts.headD []
    let titlePart := (parts.drop 1).headD []
    (datePart, titlePart)
  else if testDateFull header || testDateYear header then (header, [])
  else ([], header)

/-- `/:::timeline\s*\r?\n([\s\S]*?):::/g`. -/
def timelineTry (cbs : List (List Char)) (s : List Char) :
    Option (List Char × List Char) :=
  if (str (":::timeline")).isPrefixOf s then
    match wsNlOpen (s.drop 11) with
    | some body =>
      match findSub (str (":::")) body with
      | some (content, rest) =>
        let pairs := (atSplit (str ("@item")) content).2
        let items := pairs.map fun p =>
          let hd := timelineHeader (jsTrim p.1)
          let itemContent := restoreBlocks p.2 cbs
          str ("<div data-timeline-date=\"") ++ escQuot hd.1 ++
          str ("\" data-timeline-title=\"") ++ escQuot hd.2 ++
          str ("\" data-timeline-content=\"") ++ encodeURI itemContent ++
          str ("\"></div>\n")
        some (str ("<div data-timeline=\"true\">\n") ++ items.flatten ++
          str ("</div>"), rest)
      | none => none
    | none => none
  else none

/-- The link-card replacement decision of `processContent`: abandon the
extraction (keeping the match) when the `url` attribute is missing. -/
def linkCardUrl (attrs : List Char) : List Char :=
  ((attrQuoted (str ("url")) attrs).map jsTrim).getD []

/-- Build the link-card carrier div. -/
def buildLinkCard (attrs content : List Char) : List Char :=
  let url := linkCardUrl attrs
  let title := ((attrQuoted (str ("title")) attrs).map jsTrim).getD []
  let description := ((attrQuoted (str ("description")) attrs).map jsTrim).getD []
  let image := ((attrQuoted (str ("image")) attrs).map jsTrim).getD []
  let finalTitle := if !title.isEmpty then title else jsTrim content
  str ("<div data-link-card=\"true\" data-link-url=\"") ++ encodeURI url ++
  str ("\" data-link-title=\"") ++ encodeURI finalTitle ++
  str ("\" data-link-description=\"") ++ encodeURI description ++
  str ("\" data-link-image=\"") ++ encodeURI image ++ str ("\"></div>")

/-- The replacement callback of the link-card pass: the original match is
passed through unchanged when the `url` attribute is absent. -/
def linkCardReplace (m attrs content : List Char) : List Char :=
  if (linkCardUrl attrs).isEmpty then m else buildLinkCard attrs content

/-- `/:::link-card\{([^}]+)\}\s*\r?\n?([\s\S]*?):::/g`. -/
def linkCardTry (s : List Char) : Option (List Char × List Char) :=
  if (str (":::link-card") ++ [obr]).isPrefixOf s then
    let afterO := s.drop 13
    let attrs := afterO.takeWhile (· != cbr)
    if attrs.isEmpty then none
    else
      match afterO.drop attrs.length with
      | c :: r1 =>
        if c == cbr then
          let r2 := r1.dropWhile jsSpace
          match findSub (str (":::")) r2 with
          | some (content, rest) =>
            some (linkCardReplace (s.take (s.length - rest.length)) attrs content, rest)
          | none => none
        else none
      | [] => none
  else none

/-- `/\[([^\]]+)\]\(([^)]+)\)\s*\{([^}]+)\}/g`: icon links. -/
def iconLinkTry (s : List Char) : Option (List Char × List Char) :=
  match s with
  | '[' :: a1 =>
    let text := a1.takeWhile (· != ']')
    if text.isEmpty then none
    else
      match a1.drop text.length with
      | ']' :: '(' :: a2 =>
        let url := a2.takeWhile (· != ')')
        if url.isEmpty then none
        else
          match a2.drop url.length with
          | ')' :: a3 =>
            let a4 := a3.dropWhile jsSpace
            match a4 with
            | c :: a5 =>
              if c == obr then
                let attrs := a5.takeWhile (· != cbr)
                if attrs.isEmpty then none
                else
                  match a5.drop attrs.length with
                  | d :: a6 =>
                    if d == cbr then
                      some (str ("<a href=\"") ++ url ++ str ("\" data-icon=\"") ++
                        attrs ++ str ("\">") ++ text ++ str ("</a>"), a6)
                    else none
                  | [] => none
              else none
            | [] => none
          | _ => none
      | _ => none
  | _ => none

/-! ### The full preprocessing pipeline -/

/-- `processContent` of `MarkdownRenderer` (`Tabs.tsx`): the complete chain of
global text substitutions applied to a document before baseline rendering. -/
def processContent (text : String) : String :=
  if text == "" || (jsTrim text.toList).isEmpty then text
  else
    let r0 := text.toList
    let p0 := pass0 r0
    let r1 := joinLF (indentFixGo (splitLF p0.1) none)
    let r2 := restorePass0 r1 p0.2
    let pf := protectFenced r2 []
    let pi := protectInline pf.1 pf.2
    let cbs := pi.2
    let r3 := runPass chartTry pi.1
    let r4 := runPass videoTry1 r3
    let r5 := runPass videoTry2 r4
    let r6 := runPass alertTry1 r5
    let r7 := runPass alertTry2 r6
    let r8 := runPass highlightTry r7
    let r9 := runPass supTry r8
    let r10 := subPass r9
    let r11 := runPass imageTry r10
    let r12 := runPass titledLinkTry r11
    let r13 := runPass iconLinkTry r12
    let r14 := runPass chatTry1 r13
    let r15 := runPass chatTry2 r14
    let r16 := runPass (tabsTry cbs) r15
    let r17 := runPass linkCardTry r16
    let r18 := runPass chatTry1 r17
    let r19 := runPass chatTry2 r18
    let r20 := runPass (timelineTry cbs) r19
    String.mk (restoreBlocks r20 cbs)

/-! ### Dispatch-side models (`MarkdownRenderer` / `Tabs` div handlers) -/

/-- Alert-type normalisation of the dispatch layer. -/
def dispatchAlertType (t : List Char) : List Char :=
  if validAlertTypes.contains t then t else str ("info")

/-- The figure-wrapping decision of the video dispatch: the element is wrapped
in a captioned figure exactly when the caption attribute is present and
non-empty. -/
def videoRenderWrapsFigure (captionAttr : Option String) : Bool :=
  !(captionAttr.getD "").isEmpty

/-! ### Supporting universal lemmas -/

theorem mem_takeWhile_pred {p : Char → Bool} {l : List Char} {c : Char}
    (h : c ∈ l.takeWhile p) : p c = true := by
  induction l with
  | nil => simp [List.takeWhile] at h
  | cons a t ih =>
    simp only [List.takeWhile] at h
    by_cases hp : p a
    · simp [hp] at h
      rcases h with h | h
      · subst h; exact hp
      · exact ih h
    · simp [hp] at h

theorem mem_of_getLast? {l : List Char} {c : Char} (h : l.getLast? = some c) :
    c ∈ l := by
  rcases List.getLast?_eq_some_iff.mp h with ⟨ys, hy⟩
  subst hy
  simp

/-- Values captured by the quoted-or-bare attribute pattern never contain a
comma or a quote. -/
theorem attemptQuoted_chars {rest v : List Char}
    (h : attemptQuoted rest = some v) :
    ',' ∉ v ∧ sq ∉ v ∧ '"' ∉ v := by
  have hfall : (List.takeWhile jsSpace rest).getLast?.map
      (fun x => ([x] : List Char)) = some v → ',' ∉ v ∧ sq ∉ v ∧ '"' ∉ v := by
    intro hf
    rcases Option.map_eq_some'.mp hf with ⟨l, hl, hv⟩
    have hsp : jsSpace l = true := mem_takeWhile_pred (mem_of_getLast? hl)
    subst hv
    refine ⟨?_, ?_, ?_⟩ <;> intro hmem <;> simp at hmem <;> subst hmem <;>
      simp [jsSpace, sq] at hsp
  have htake : ∀ l : List Char, List.takeWhile qbOk l = v →
      ',' ∉ v ∧ sq ∉ v ∧ '"' ∉ v := by
    intro l hv
    refine ⟨?_, ?_, ?_⟩ <;> intro hmem <;>
    · have := mem_takeWhile_pred (hv ▸ hmem)
      simp [qbOk, isQuoteChar, sq] at this
  rw [attemptQuoted] at h
  cases hdw : List.dropWhile jsSpace rest with
  | nil =>
    rw [hdw] at h
    exact hfall h
  | cons c r' =>
    rw [hdw] at h
    dsimp only at h
    by_cases hq : isQuoteChar c = true
    · rw [if_pos hq] at h
      by_cases he : (List.takeWhile qbOk r').isEmpty = true
      · rw [if_pos he] at h
        exact hfall h
      · rw [if_neg he] at h
        exact htake r' (Option.some_injective _ h)
    · rw [if_neg hq] at h
      by_cases hcc : (c == ',') = true
      · rw [if_pos hcc] at h
        exact hfall h
      · rw [if_neg hcc] at h
        exact htake (c :: r') (Option.some_injective _ h)

/-- Lift the character property through the key search. -/
theorem findKeyAttempt_prop {α : Type} {attempt : List Char → Option α}
    {P : α → Prop} (hbase : ∀ rest v, attempt rest = some v → P v) :
    ∀ key s v, findKeyAttempt key attempt s = some v → P v := by
  intro key s
  induction s with
  | nil =>
    intro v h
    unfold findKeyAttempt at h
    cases hc : ciStrip key [] with
    | none => rw [hc] at h; exact absurd h (by simp)
    | some rest => rw [hc] at h; exact hbase rest v h
  | cons c t ih =>
    intro v h
    unfold findKeyAttempt at h
    cases hc : ciStrip key (c :: t) with
    | none => rw [hc] at h; exact ih v h
    | some rest =>
      rw [hc] at h
      dsimp only at h
      cases ha : attempt rest with
      | none => rw [ha] at h; exact ih v h
      | some u =>
        rw [ha] at h
        have huv := Option.some_injective _ h
        subst huv
        exact hbase rest u ha

/-- Every value parsed by `attrQuoted` is free of commas and quotes. -/
theorem attrQuoted_chars (key s v : List Char)
    (h : attrQuoted key s = some v) : ',' ∉ v ∧ sq ∉ v ∧ '"' ∉ v :=
  findKeyAttempt_prop (fun _ _ hv => attemptQuoted_chars hv) (key ++ [':']) s v h

theorem containsSub_of_leading {p s : List Char} (h : p.isPrefixOf s = true) :
    containsSub p s = true := by
  cases s with
  | nil =>
    have : p = [] := by simpa using List.isPrefixOf_iff_prefix.mp h
    simp [containsSub, this]
  | cons c t => simp [containsSub, h]

theorem containsSub_cons {p s : List Char} {c : Char}
    (h : containsSub p s = true) : containsSub p (c :: s) = true := by
  simp [containsSub, h]

theorem containsSub_append_left {p s : List Char} (a : List Char)
    (h : containsSub p s = true) : containsSub p (a ++ s) = true := by
  induction a with
  | nil => simpa using h
  | cons c t ih => exact containsSub_cons ih

theorem containsSub_self_append (p b : List Char) :
    containsSub p (p ++ b) = true :=
  containsSub_of_leading (List.isPrefixOf_iff_prefix.mpr (List.prefix_append p b))

/-- The guarded `messages.push` preserves message non-emptiness. -/
theorem chatFlush_content {p : ChatPerson} {content : List (List Char)}
    {msgs : List ChatMessage} (h : ∀ m ∈ msgs, m.content ≠ "") :
    ∀ m ∈ chatFlush p content msgs, m.content ≠ "" := by
  intro m hm
  unfold chatFlush at hm
  by_cases he : (jsTrim (joinLF content)).isEmpty = true
  · rw [if_pos he] at hm; exact h m hm
  · rw [if_neg he] at hm
    rcases List.mem_append.mp hm with hm | hm
    · exact h m hm
    · simp only [List.mem_singleton] at hm
      subst hm
      intro hc
      have hdata : jsTrim (joinLF content) = [] := by
        have := congrArg String.data hc
        simpa using this
      rw [hdata] at he
      simp at he

/-- The chat line loop only ever emits messages with non-empty content. -/
theorem chatGo_content : ∀ (lines : List (List Char)) (p : Option ChatPerson)
    (content : List (List Char)) (msgs : List ChatMessage),
    (∀ m ∈ msgs, m.content ≠ "") →
    ∀ m ∈ chatGo lines p content msgs, m.content ≠ "" := by
  intro lines
  induction lines with
  | nil =>
    intro p content msgs h m hm
    unfold chatGo at hm
    cases p with
    | none => exact h m hm
    | some per =>
      dsimp only at hm
      by_cases he : content.isEmpty = true
      · rw [if_pos he] at hm; exact h m hm
      · rw [if_neg he] at hm; exact chatFlush_content h m hm
  | cons l t ih =>
    intro p content msgs h m hm
    unfold chatGo at hm
    cases hpl : personLineMatch l with
    | some attrsRaw =>
      rw [hpl] at hm
      dsimp only at hm
      cases p with
      | none => exact ih _ _ _ h m hm
      | some per => exact ih _ _ _ (chatFlush_content h) m hm
    | none =>
      rw [hpl] at hm
      dsimp only at hm
      cases p with
      | none => exact ih _ _ _ h m hm
      | some per => exact ih _ _ _ h m hm

/-- Lines before the first `@person` marker leave the loop state untouched. -/
theorem chatGo_skip_prefix : ∀ (pre rest : List (List Char))
    (content : List (List Char)) (msgs : List ChatMessage),
    (∀ l ∈ pre, personLineMatch l = none) →
    chatGo (pre ++ rest) none content msgs = chatGo rest none content msgs := by
  intro pre
  induction pre with
  | nil => intro rest content msgs _; rfl
  | cons l t ih =>
    intro rest content msgs h
    have hl : personLineMatch l = none := h l (by simp)
    have hstep : chatGo (l :: (t ++ rest)) none content msgs =
        chatGo (t ++ rest) none content msgs := by
      conv_lhs => rw [chatGo.eq_def]
      dsimp only
      rw [hl]
    rw [List.cons_append, hstep]
    exact ih rest content msgs fun x hx => h x (by simp [hx])

/-- Without any fence line the ordered-list scan is a plain line filter. -/
theorem polGo_no_fences : ∀ lines : List (List Char),
    (∀ l ∈ lines, fenceOf l = none) →
    polGo lines none = lines.filterMap olLineMatch := by
  intro lines
  induction lines with
  | nil => intro _; rfl
  | cons l t ih =>
    intro h
    have hl : fenceOf l = none := h l (by simp)
    have ht := ih fun x hx => h x (by simp [hx])
    unfold polGo
    rw [hl]
    cases hol : olLineMatch l with
    | none => simpa [List.filterMap_cons, hol] using ht
    | some p => simpa [List.filterMap_cons, hol] using ht

/-- A whole fenced block — its opening fence line, every line up to the fence
line that closes it with the opening run as prefix, and the closing line — is
skipped: the scan of the rest continues as if the block were absent. -/
theorem polGo_skips_fenced_block :
    ∀ (body : List (List Char)) (lo fo lc gc : List Char)
      (rest : List (List Char)),
      fenceOf lo = some fo →
      (∀ l ∈ body, fenceOf l = none ∨ fo.isPrefixOf l = false) →
      fenceOf lc = some gc → fo.isPrefixOf lc = true →
      polGo (lo :: (body ++ lc :: rest)) none = polGo rest none := by
  have hbody : ∀ (body : List (List Char)) (fo : List Char)
      (tail : List (List Char)),
      (∀ l ∈ body, fenceOf l = none ∨ fo.isPrefixOf l = false) →
      polGo (body ++ tail) (some fo) = polGo tail (some fo) := by
    intro body
    induction body with
    | nil => intro fo tail _; rfl
    | cons l b ih =>
      intro fo tail h
      rw [List.cons_append]
      have hstep : polGo (l :: (b ++ tail)) (some fo) =
          polGo (b ++ tail) (some fo) := by
        conv_lhs => rw [polGo.eq_def]
        dsimp only
        rcases h l (by simp) with hl | hl
        · rw [hl]
        · cases hf : fenceOf l with
          | none => rfl
          | some g =>
            dsimp only
            rw [hl]
            simp
      rw [hstep]
      exact ih fo tail fun x hx => h x (by simp [hx])
  intro body lo fo lc gc rest hlo hb hlc hpre
  have h1 : polGo (lo :: (body ++ lc :: rest)) none =
      polGo (body ++ lc :: rest) (some fo) := by
    conv_lhs => rw [polGo.eq_def]
    dsimp only
    rw [hlo]
  rw [h1, hbody body fo (lc :: rest) hb]
  have h2 : polGo (lc :: rest) (some fo) = polGo rest none := by
    conv_lhs => rw [polGo.eq_def]
    dsimp only
    rw [hlc]
    dsimp only
    rw [hpre]
    simp
  rw [h2]

/-! ### Claim theorems -/

/-- C1.  The claim states that code regions always pass through
`processContent` unchanged.  The code violates it: a tilde-fenced code block is
protected by the first (indentation) pass and recognised as a code fence by
`parseOrderedListNumbers`, yet the second protection pass only shields
backtick fences, so extension syntax inside a `~~~` block is rewritten. -/
theorem c1_code_rewrites_inside_tilde_fence :
    processContent ("~~~\n==x==\n~~~") = "~~~\n<mark>x</mark>\n~~~" ∧
    processContent ("```\n==x==\n```") = "```\n==x==\n```" ∧
    parseOrderedListNumbers ("~~~\n1. x\n~~~") = [] := by
  refine ⟨by decide, by decide, by decide⟩

/-- C3.  The claim states that `processContent` is idempotent.  It is not: a
chat body containing two tildes on different lines is percent-encoded into a
single-line carrier attribute (`~` and `%0A` survive `encodeURIComponent`),
and the second run rewrites the now same-line `~…~` span inside the encoded
payload into a `<sub>` element. -/
theorem c3_not_idempotent :
    processContent (processContent (":::chat\n@person name:A\nx ~a\nb~ y\n:::")) ≠
      processContent (":::chat\n@person name:A\nx ~a\nb~ y\n:::") := by decide

/-- C4.  The ordered-list scan collects `(number, indent)` in source order,
skipping lines inside fenced code blocks: on the stated source it recovers
exactly `[(1,0),(2,0),(1,4),(2,4),(3,0)]` (so the nested entries carry indent
4 ≥ 4 and the nested sequence restarts at 1); on fence-free input it is
exactly the per-line filter of the list-line match; and every fenced block —
its delimiters together with every line before the closing fence — is skipped,
the scan resuming after the block, also on a concrete fenced source. -/
theorem c4_ordered_list_scan :
    parseOrderedListNumbers ("1. a\n2. b\n    1. c\n    2. d\n3. e") =
      [(1, 0), (2, 0), (1, 4), (2, 4), (3, 0)] ∧
    (∀ lines : List (List Char), (∀ l ∈ lines, fenceOf l = none) →
      polGo lines none = lines.filterMap olLineMatch) ∧
    (∀ (body : List (List Char)) (lo fo lc gc : List Char)
        (rest : List (List Char)),
      fenceOf lo = some fo →
      (∀ l ∈ body, fenceOf l = none ∨ fo.isPrefixOf l = false) →
      fenceOf lc = some gc → fo.isPrefixOf lc = true →
      polGo (lo :: (body ++ lc :: rest)) none = polGo rest none) ∧
    parseOrderedListNumbers ("1. a\n```\n2. b\n```\n3. e") = [(1, 0), (3, 0)] :=
  ⟨by decide, polGo_no_fences, polGo_skips_fenced_block, by decide⟩

theorem c4_ordered_list_scan_witness :
    polGo [str ("1. a"), str ("x")] none =
      [str ("1. a"), str ("x")].filterMap olLineMatch ∧
    polGo [str ("```"), str ("2. b"), str ("```"), str ("3. e")] none =
      polGo [str ("3. e")] none :=
  ⟨c4_ordered_list_scan.2.1 [str ("1. a"), str ("x")] (by decide),
   c4_ordered_list_scan.2.2.1 [str ("2. b")] (str ("```")) (str ("```"))
     (str ("```")) (str ("```")) [str ("3. e")]
     (by decide) (by decide) (by decide) (by decide)⟩

/-- C5 counterexample.  On the stated chat body the second parsed message
carries no avatar at all: the claim that it carries a derived avatar URL
containing the name `B` is false, because `B` fails the 3–16 character
Minecraft username validation. -/
theorem c5_minecraft_avatar_counterexample :
    (parseChatContent ("@person name:A\nhi\n@person name:B, avatar:minecraft\nyo")).length = 2 ∧
    ((parseChatContent ("@person name:A\nhi\n@person name:B, avatar:minecraft\nyo"))[1]?).map
      (fun m => m.person.avatar) = some none := by decide

/-- C5 amended.  The stated chat body yields exactly two messages, but the
second person has no avatar, since the literal name `B` fails the 3–16
character validation of `getMinecraftAvatar`; a valid name such as `Bob`
yields a derived URL containing the name. -/
theorem c5_chat_parsing_amended :
    parseChatContent ("@person name:A\nhi\n@person name:B, avatar:minecraft\nyo") =
      [⟨⟨"A", none⟩, "hi"⟩, ⟨⟨"B", none⟩, "yo"⟩] ∧
    getMinecraftAvatar ("B") = "" ∧
    getMinecraftAvatar ("Bob") = "https://mc-heads.net/avatar/Bob" := by decide

/-- C6.  A link-card block whose attribute list has no `url` key is abandoned:
the replacement callback returns the match itself, and the stated single-line
block passes through the whole pipeline character-for-character unchanged. -/
theorem c6_link_card_abort :
    (∀ m attrs content : List Char, attrQuoted (str ("url")) attrs = none →
      linkCardReplace m attrs content = m) ∧
    processContent (":::link-card\x7btitle:X\x7dbody:::") =
      ":::link-card\x7btitle:X\x7dbody:::" := by
  constructor
  · intro m attrs content h
    simp [linkCardReplace, linkCardUrl, h]
  · decide

theorem c6_link_card_abort_witness :
    linkCardReplace (str ("m")) (str ("title:X")) (str ("body")) = str ("m") :=
  c6_link_card_abort.1 (str ("m")) (str ("title:X")) (str ("body")) (by decide)

/-- C7 counterexample.  A quoted attribute value containing a comma is not
parsed in full: the capture of `title:"a, b"` is `a`, not `a, b`, because the
captured class `[^,'"]+` stops at the comma even inside quotes. -/
theorem c7_quoted_comma_counterexample :
    attrQuoted (str ("title")) (str ("title:\"a, b\"")) = some (str ("a")) ∧
    str ("a") ≠ str ("a, b") := by decide

/-- C7 amended.  Both quoted and bare values terminate at the next comma,
quote or end of string (quotes are stripped): no parsed value ever contains a
comma or a quote, a comma-free quoted value is captured in full, and a bare
value terminates at the next comma. -/
theorem c7_attr_value_amended :
    (∀ key s v, attrQuoted key s = some v → ',' ∉ v ∧ sq ∉ v ∧ '"' ∉ v) ∧
    attrQuoted (str ("title")) (str ("title:\"a b\"")) = some (str ("a b")) ∧
    attrQuoted (str ("title")) (str ("title:ab, c:d")) = some (str ("ab")) :=
  ⟨attrQuoted_chars, by decide, by decide⟩

theorem c7_attr_value_amended_witness :
    ',' ∉ str ("a b") ∧ sq ∉ str ("a b") ∧ '"' ∉ str ("a b") :=
  c7_attr_value_amended.1 (str ("title")) (str ("title:\"a b\"")) (str ("a b"))
    (by decide)

/-- C8.  A missing `type` attribute and an unrecognised `type` value both
resolve to `info` — in `parseAlertAttrs` and in the dispatch fallback — and
the single-line block `:::alert{}content:::` produces an info alert carrier
with no title attribute. -/
theorem c8_alert_default_info :
    (∀ attrs, attrWord (str ("type")) attrs = none →
      (parseAlertAttrs attrs).1 = str ("info")) ∧
    (∀ attrs t, attrWord (str ("type")) attrs = some t →
      validAlertTypes.contains (lowerL t) = false →
      (parseAlertAttrs attrs).1 = str ("info")) ∧
    (∀ t, validAlertTypes.contains t = false →
      dispatchAlertType t = str ("info")) ∧
    processContent (":::alert\x7b\x7dcontent:::") =
      "\n<div data-alert-type=\"info\" class=\"alert-block alert-info\">\n\ncontent\n\n</div>\n" := by
  refine ⟨?_, ?_, ?_, by decide⟩
  · intro attrs h
    simp [parseAlertAttrs, h]
  · intro attrs t h hv
    have hv' : lowerL t ∉ validAlertTypes := by simpa using hv
    simp [parseAlertAttrs, h, hv']
  · intro t h
    have hv' : t ∉ validAlertTypes := by simpa using h
    simp [dispatchAlertType, hv']

theorem c8_alert_default_info_witness :
    (parseAlertAttrs (str (""))).1 = str ("info") ∧
    (parseAlertAttrs (str ("type:danger"))).1 = str ("info") ∧
    dispatchAlertType (str ("bogus")) = str ("info") :=
  ⟨c8_alert_default_info.1 (str ("")) (by decide),
   c8_alert_default_info.2.1 (str ("type:danger")) (str ("danger")) (by decide)
     (by decide),
   c8_alert_default_info.2.2.1 (str ("bogus")) (by decide)⟩

/-- C9.  Every absent video attribute resolves to its stated default
(`align=center`, `controls=true`, `autoplay=false`, `loop=false`,
`muted=false`), a present caption is carried across as a
`data-video-caption` attribute, and the dispatch layer wraps the video in a
captioned figure exactly when the caption attribute is non-empty. -/
theorem c9_video_defaults :
    (∀ attrs, attrWord (str ("align")) attrs = none →
      (parseVideoAttrs attrs).align = str ("center")) ∧
    (∀ attrs, attrWord (str ("controls")) attrs = none →
      (parseVideoAttrs attrs).controls = true) ∧
    (∀ attrs, attrWord (str ("autoplay")) attrs = none →
      (parseVideoAttrs attrs).autoplay = false) ∧
    (∀ attrs, attrWord (str ("loop")) attrs = none →
      (parseVideoAttrs attrs).loopFlag = false) ∧
    (∀ attrs, attrWord (str ("muted")) attrs = none →
      (parseVideoAttrs attrs).muted = false) ∧
    (∀ url attrs, (parseVideoAttrs attrs).caption ≠ [] →
      containsSub (str ("data-video-caption"))
        (buildVideoAttrs url (parseVideoAttrs attrs)) = true) ∧
    (∀ c : String, c ≠ "" → videoRenderWrapsFigure (some c) = true) := by
  refine ⟨?_, ?_, ?_, ?_, ?_, ?_, ?_⟩
  · intro attrs h; simp [parseVideoAttrs, h]
  · intro attrs h; simp [parseVideoAttrs, h]
  · intro attrs h; simp [parseVideoAttrs, h]
  · intro attrs h; simp [parseVideoAttrs, h]
  · intro attrs h; simp [parseVideoAttrs, h]
  · intro url attrs h
    have hcap : (!(parseVideoAttrs attrs).caption.isEmpty) = true := by
      simp [List.isEmpty_iff, h]
    unfold buildVideoAttrs
    rw [if_pos hcap]
    have hsplit : str (" data-video-caption=\"") =
        [' '] ++ (str ("data-video-caption") ++ str ("=\"")) := by decide
    rw [hsplit]
    simp only [List.append_assoc]
    repeat first
      | exact containsSub_self_append _ _
      | apply containsSub_append_left
  · intro c h
    have hf : c.isEmpty = false := by
      cases hb : c.isEmpty
      · rfl
      · exact absurd ((String.isEmpty_iff c).mp hb) h
    simp [videoRenderWrapsFigure, hf]

theorem c9_video_defaults_witness :
    (parseVideoAttrs (str (""))).align = str ("center") ∧
    (parseVideoAttrs (str (""))).controls = true ∧
    (parseVideoAttrs (str (""))).autoplay = false ∧
    (parseVideoAttrs (str (""))).loopFlag = false ∧
    (parseVideoAttrs (str (""))).muted = false ∧
    containsSub (str ("data-video-caption"))
      (buildVideoAttrs (str ("u")) (parseVideoAttrs (str ("caption:hi")))) = true ∧
    videoRenderWrapsFigure (some "hi") = true :=
  ⟨c9_video_defaults.1 (str ("")) (by decide),
   c9_video_defaults.2.1 (str ("")) (by decide),
   c9_video_defaults.2.2.1 (str ("")) (by decide),
   c9_video_defaults.2.2.2.1 (str ("")) (by decide),
   c9_video_defaults.2.2.2.2.1 (str ("")) (by decide),
   c9_video_defaults.2.2.2.2.2.1 (str ("u")) (str ("caption:hi")) (by decide),
   c9_video_defaults.2.2.2.2.2.2 "hi" (by decide)⟩

/-- C10 counterexample.  A `name:` attribute whose value is whitespace yields
a message whose person name is the empty string, so the claim that every
emitted message has a non-empty person name is false. -/
theorem c10_empty_name_counterexample :
    parseChatContent ("@person name: ,\nhi") = [⟨⟨"", none⟩, "hi"⟩] := by decide

/-- C10 amended.  Every emitted chat message has non-empty content, lines
before the first `@person` marker never contribute to any message, and the
person name defaults to `Unknown` when no name attribute parses; a name
attribute that parses to whitespace may however produce an empty name. -/
theorem c10_chat_invariants_amended :
    (∀ s : String, ∀ m ∈ parseChatContent s, m.content ≠ "") ∧
    (∀ (pre rest content : List (List Char)) (msgs : List ChatMessage),
      (∀ l ∈ pre, personLineMatch l = none) →
      chatGo (pre ++ rest) none content msgs = chatGo rest none content msgs) ∧
    (∀ attrs, chatNameMatch attrs = none → (parsePerson attrs).name = "Unknown") := by
  refine ⟨?_, chatGo_skip_prefix, ?_⟩
  · intro s m hm
    unfold parseChatContent at hm
    by_cases hc : (s == "" || (jsTrim s.toList).isEmpty) = true
    · rw [if_pos hc] at hm; simp at hm
    · rw [if_neg hc] at hm
      exact chatGo_content _ _ _ _ (by simp) m hm
  · intro attrs h
    simp [parsePerson, h]

/-! ### C2: the span-protection round trip

The protect side is the pair of passes `protectFenced` / `protectInline`, the
restore side the final scanner `restoreBlocks`.  The proof decomposes the
masked document into literal segments and placeholders and shows that the
restore scanner re-finds exactly the inserted placeholders. -/

/-- The composed Span Protector of `processContent`. -/
def protect (d : List Char) : List Char × List (List Char) :=
  let a := protectFenced d []
  protectInline a.1 a.2

/-- Flatten a placeholder/literal piece list into its masked text. -/
def flattenR (rest : List (Nat × List Char)) : List Char :=
  (rest.map fun p => phC p.1 ++ p.2).flatten

/-- Expand a piece list through the block store, as restoration would. -/
def expandR (bs : List (List Char)) (rest : List (Nat × List Char)) : List Char :=
  (rest.map fun p => ((bs.get? p.1).getD (str ("undefined"))) ++ p.2).flatten

theorem flattenR_cons (p : Nat × List Char) (rest : List (Nat × List Char)) :
    flattenR (p :: rest) = phC p.1 ++ (p.2 ++ flattenR rest) := by
  simp [flattenR]

theorem expandR_cons (bs : List (List Char)) (p : Nat × List Char)
    (rest : List (Nat × List Char)) :
    expandR bs (p :: rest) =
      ((bs.get? p.1).getD (str ("undefined"))) ++ (p.2 ++ expandR bs rest) := by
  simp [expandR]

/-! #### Small list facts -/

theorem takeWhile_all_append {p : Char → Bool} :
    ∀ (a b : List Char), (∀ c ∈ a, p c = true) →
      (∀ c, b.head? = some c → p c = false) →
      (a ++ b).takeWhile p = a ∧ (a ++ b).dropWhile p = b := by
  intro a
  induction a with
  | nil =>
    intro b _ hb
    cases b with
    | nil => simp
    | cons c t =>
      have := hb c rfl
      simp [List.takeWhile, List.dropWhile, this]
  | cons x a' ih =>
    intro b ha hb
    have hx : p x = true := ha x (by simp)
    have := ih b (fun c hc => ha c (by simp [hc])) hb
    simp [List.takeWhile, List.dropWhile, hx, this.1, this.2]

theorem takeWhile_append_local {p : Char → Bool} :
    ∀ (u w : List Char) (x : Char), x ∈ u → p x = false →
      (u ++ w).takeWhile p = u.takeWhile p ∧
      (u ++ w).dropWhile p = u.dropWhile p ++ w := by
  intro u
  induction u with
  | nil => intro w x hx; simp at hx
  | cons c u' ih =>
    intro w x hx hpx
    by_cases hc : p c = true
    · rcases List.mem_cons.mp hx with he | hm
      · subst he; rw [hc] at hpx; cases hpx
      · have := ih w x hm hpx
        simp [List.takeWhile, List.dropWhile, hc, this.1, this.2]
    · have hc' : p c = false := by simpa using hc
      simp [List.takeWhile, List.dropWhile, hc']

theorem isPrefixOf_append_drop {p x : List Char} (h : p.isPrefixOf x = true) :
    p ++ x.drop p.length = x := by
  rcases List.isPrefixOf_iff_prefix.mp h with ⟨t, ht⟩
  subst ht
  simp

theorem replicate_isPrefixOf_append (c0 : Char) :
    ∀ (n : Nat) (u w : List Char) (x : Char), x ∈ u → (x == c0) = false →
      (List.replicate n c0).isPrefixOf (u ++ w) =
        (List.replicate n c0).isPrefixOf u := by
  intro n
  induction n with
  | zero => intro u w x _ _; simp [List.isPrefixOf]
  | succ m ih =>
    intro u w x hx hxc
    cases u with
    | nil => simp at hx
    | cons c u' =>
      have hne : x ≠ c0 := by simpa using hxc
      simp only [List.replicate_succ, List.cons_append, List.isPrefixOf, List.append_eq]
      rcases List.mem_cons.mp hx with he | hm
      · subst he
        have hf : (c0 == x) = false := by simpa using Ne.symm hne
        simp [hf]
      · rw [ih u' w x hm hxc]

theorem containsSub_iff_occurs (pat : List Char) :
    ∀ s, containsSub pat s = true ↔ pat <:+: s := by
  intro s
  induction s with
  | nil => simp [containsSub, List.isEmpty_iff]
  | cons c t ih =>
    simp only [containsSub, Bool.or_eq_true]
    rw [List.infix_cons_iff, ih]
    constructor
    · rintro (h | h)
      · exact Or.inl (List.isPrefixOf_iff_prefix.mp h)
      · exact Or.inr h
    · rintro (h | h)
      · exact Or.inl (List.isPrefixOf_iff_prefix.mpr h)
      · exact Or.inr h

theorem takeWhile_eq_nil_of_head {p : Char → Bool} {l : List Char} {c : Char}
    (h : l.head? = some c) (hc : p c = false) : l.takeWhile p = [] := by
  cases l with
  | nil => rfl
  | cons a t =>
    have : a = c := by simpa using h
    subst this
    simp [List.takeWhile, hc]

theorem containsSub_tail {pat : List Char} {c : Char} {t : List Char}
    (h : containsSub pat (c :: t) = false) : containsSub pat t = false := by
  have he : containsSub pat (c :: t) =
      (pat.isPrefixOf (c :: t) || containsSub pat t) := rfl
  rw [he] at h
  exact (Bool.or_eq_false_iff.mp h).2

theorem restoreGo_nil (bs : List (List Char)) :
    ∀ fuel, restoreGo bs fuel [] = [] := by
  intro fuel
  cases fuel <;> rfl

/-- Restoration finds a placeholder at the head and consumes exactly it. -/
theorem tokenTry_ph (i : Nat) (r : List Char) :
    tokenTry (phC i ++ r) = some (i, r) := by
  have hassoc : phC i ++ r = tokCB ++ (natDigits i ++ (str ("___") ++ r)) := by
    simp [phC, List.append_assoc]
  rw [hassoc]
  unfold tokenTry
  rw [if_pos (List.isPrefixOf_iff_prefix.mpr (List.prefix_append _ _))]
  rw [List.drop_left]
  have hhd : ∀ c : Char, (str ("___") ++ r).head? = some c →
      isDigitChar c = false := by
    intro c hc
    have : c = '_' := by
      have : (str ("___") ++ r).head? = some '_' := rfl
      rw [this] at hc
      simpa using hc.symm
    subst this
    decide
  have hsplit := takeWhile_all_append (natDigits i) (str ("___") ++ r)
    (natDigits_digits i) hhd
  have hne : (natDigits i).isEmpty = false := by
    cases hnd : natDigits i with
    | nil => exact absurd hnd (natDigits_ne_nil i)
    | cons a t => rfl
  have hpre3 : (str ("___")).isPrefixOf (str ("___") ++ r) = true :=
    List.isPrefixOf_iff_prefix.mpr (List.prefix_append _ _)
  have hd3 : (str ("___") ++ r).drop 3 = r := by
    rw [show (3 : Nat) = (str ("___")).length from rfl]
    exact List.drop_left _ _
  simp only [hsplit.1, hne, Bool.false_eq_true, if_false, List.drop_left,
    hpre3, if_true, parseDigits_natDigits, hd3]

/-- Restoration never fires inside a clean literal segment, even across the
boundary to a following placeholder. -/
theorem tokenTry_none (u w : List Char) (hu : u ≠ [])
    (hcl : containsSub tokCB u = false)
    (hw : w = [] ∨ ∃ i r, w = phC i ++ r) :
    tokenTry (u ++ w) = none := by
  unfold tokenTry
  by_cases hp : tokCB.isPrefixOf (u ++ w) = true
  · rcases List.isPrefixOf_iff_prefix.mp hp with ⟨t, ht⟩
    by_cases hlen : tokCB.length ≤ u.length
    · exfalso
      have hu' : tokCB.isPrefixOf u = true := by
        apply List.isPrefixOf_iff_prefix.mpr
        have := congrArg (List.take tokCB.length) ht
        rw [List.take_append_of_le_length hlen,
          List.take_append_of_le_length (le_refl _), List.take_length] at this
        exact ⟨u.drop tokCB.length, by
          nth_rewrite 1 [this]
          exact List.take_append_drop _ u⟩
      rw [containsSub_of_leading hu'] at hcl
      cases hcl
    · push_neg at hlen
      rcases hw with hw | ⟨i, r, hw⟩
      · exfalso
        subst hw
        have := (List.isPrefixOf_iff_prefix.mp hp).length_le
        simp at this
        omega
      · subst hw
        -- the only possible overlap is the 13-character border of the token
        have hn1 : 1 ≤ u.length := by
          cases hun : u with
          | nil => exact absurd hun hu
          | cons a b => simp [hun]
        have htl : tokCB.length = 14 := by decide
        have hdropu : tokCB.drop u.length ++ t = phC i ++ r := by
          have h0 := congrArg (List.drop u.length) ht
          rw [List.drop_append_of_le_length (by omega), List.drop_left] at h0
          exact h0
        have hphlen : tokCB.length ≤ (phC i).length := by
          simp [phC]
        have hdl : (tokCB.drop u.length).length = tokCB.length - u.length := by
          simp
        have hdrop_take :
            tokCB.drop u.length = tokCB.take (tokCB.length - u.length) := by
          have h1 := congrArg (List.take (tokCB.length - u.length)) hdropu
          rw [List.take_append_of_le_length (by rw [hdl]),
            List.take_append_of_le_length (by omega)] at h1
          rw [show (tokCB.drop u.length).take (tokCB.length - u.length) =
              tokCB.drop u.length from by rw [← hdl, List.take_length]] at h1
          rw [h1]
          have h2 : (phC i).take (tokCB.length - u.length) =
              tokCB.take (tokCB.length - u.length) := by
            have : phC i = tokCB ++ (natDigits i ++ str ("___")) := by
              simp [phC]
            rw [this, List.take_append_of_le_length (by omega)]
          rw [h2]
        have hbord : ∀ k, k < 14 → 0 < k →
            tokCB.drop (14 - k) = tokCB.take k → k = 1 := by decide
        have hn13 : u.length = 13 := by
          have hk := hbord (tokCB.length - u.length) (by omega) (by omega)
            (by
              rw [show 14 - (tokCB.length - u.length) = u.length from by omega]
              exact hdrop_take)
          omega
        have hafter : (u ++ (phC i ++ r)).drop tokCB.length = t := by
          rw [← ht, List.drop_left]
        have hd13 : tokCB.drop 13 = ['_'] := by decide
        have htok1 : tokCB.drop 1 = '_' :: tokCB.drop 2 := by decide
        have hteq : '_' :: t = phC i ++ r := by
          rw [← hdropu, hn13, hd13]
          rfl
        have hthead : t.head? = some '_' := by
          have hphr : phC i ++ r =
              '_' :: ((tokCB.drop 1 ++ (natDigits i ++ str ("___"))) ++ r) := by
            have : tokCB = '_' :: tokCB.drop 1 := by decide
            calc phC i ++ r
                = (tokCB ++ (natDigits i ++ str ("___"))) ++ r := by simp [phC]
              _ = (('_' :: tokCB.drop 1) ++ (natDigits i ++ str ("___"))) ++ r := by
                  rw [← this]
              _ = '_' :: ((tokCB.drop 1 ++ (natDigits i ++ str ("___"))) ++ r) := by
                  simp
          have ht2 : t = (tokCB.drop 1 ++ (natDigits i ++ str ("___"))) ++ r := by
            have h3 := hteq.trans hphr
            injection h3
          rw [ht2, htok1]
          rfl
        rw [if_pos hp]
        have hds : t.takeWhile isDigitChar = [] :=
          takeWhile_eq_nil_of_head hthead (by decide)
        simp only [hafter, hds]
        rfl
  · rw [if_neg hp]

/-- Core restoration lemma: over a well-formed alternation of clean literal
segments and placeholders, the restore scanner substitutes exactly the
placeholders. -/
theorem restoreGo_piece :
    ∀ (rest : List (Nat × List Char)) (lit : List Char)
      (bs : List (List Char)) (fuel : Nat),
      lit.length + (flattenR rest).length < fuel →
      containsSub tokCB lit = false →
      (∀ p ∈ rest, containsSub tokCB p.2 = false) →
      restoreGo bs fuel (lit ++ flattenR rest) = lit ++ expandR bs rest := by
  intro rest
  induction rest with
  | nil =>
    intro lit
    induction lit with
    | nil =>
      intro bs fuel _ _ _
      simp [flattenR, expandR, restoreGo_nil]
    | cons c lt ih =>
      intro bs fuel hf hcl _
      cases fuel with
      | zero => simp at hf
      | succ f =>
        have hnone : tokenTry ((c :: lt) ++ flattenR []) = none :=
          tokenTry_none (c :: lt) (flattenR []) (by simp) hcl
            (Or.inl (by simp [flattenR]))
        show restoreGo bs (f + 1) ((c :: lt) ++ flattenR []) = _
        rw [List.cons_append]
        unfold restoreGo
        rw [show tokenTry (c :: (lt ++ flattenR [])) = none from by
          simpa using hnone]
        dsimp only
        rw [ih bs f (by simp at hf ⊢; omega) (containsSub_tail hcl) (by simp),
          List.cons_append]
  | cons p rest' ihr =>
    intro lit
    induction lit with
    | nil =>
      intro bs fuel hf hcl hrest
      cases fuel with
      | zero => simp at hf
      | succ f =>
        have htokpos : 0 < tokCB.length := by decide
        have hphpos : 0 < (phC p.1).length := by
          simp [phC]
          omega
        have hflen : (flattenR (p :: rest')).length =
            (phC p.1).length + (p.2.length + (flattenR rest').length) := by
          rw [flattenR_cons]
          simp
        rw [List.nil_append, flattenR_cons]
        cases hfc : phC p.1 ++ (p.2 ++ flattenR rest') with
        | nil =>
          exfalso
          have h1 := congrArg List.length hfc
          simp only [List.length_append, List.length_nil] at h1
          omega
        | cons x xs =>
          unfold restoreGo
          try dsimp only
          rw [← hfc, tokenTry_ph]
          show ((bs.get? p.1).getD (str ("undefined"))) ++
              restoreGo bs f (p.2 ++ flattenR rest') = expandR bs (p :: rest')
          rw [ihr p.2 bs f (by
              simp only [List.length_nil, hflen, Nat.zero_add] at hf
              omega)
            (hrest p (by simp)) (fun q hq => hrest q (by simp [hq]))]
          rw [expandR_cons]
    | cons c lt ihl =>
      intro bs fuel hf hcl hrest
      cases fuel with
      | zero => simp at hf
      | succ f =>
        have hnone : tokenTry ((c :: lt) ++ flattenR (p :: rest')) = none :=
          tokenTry_none (c :: lt) (flattenR (p :: rest')) (by simp) hcl
            (Or.inr ⟨p.1, p.2 ++ flattenR rest', by rw [flattenR_cons]⟩)
        show restoreGo bs (f + 1) ((c :: lt) ++ flattenR (p :: rest')) = _
        rw [List.cons_append]
        unfold restoreGo
        rw [show tokenTry (c :: (lt ++ flattenR (p :: rest'))) = none from by
          simpa using hnone]
        dsimp only
        rw [ihl bs f (by simp at hf ⊢; omega) (containsSub_tail hcl) hrest,
          List.cons_append]

/-- Restoration over the flattened well-formed masked document. -/
theorem restoreBlocks_piece (head : List Char) (rest : List (Nat × List Char))
    (bs : List (List Char))
    (hcl : containsSub tokCB head = false)
    (hrest : ∀ p ∈ rest, containsSub tokCB p.2 = false) :
    restoreBlocks (head ++ flattenR rest) bs = head ++ expandR bs rest := by
  unfold restoreBlocks
  exact restoreGo_piece rest head bs _ (by simp) hcl hrest

/-! #### Piece-list algebra and character facts -/

theorem flattenR_nil : flattenR [] = [] := rfl

theorem expandR_nil (bs : List (List Char)) : expandR bs [] = [] := rfl

theorem flattenR_append (xs ys : List (Nat × List Char)) :
    flattenR (xs ++ ys) = flattenR xs ++ flattenR ys := by
  simp [flattenR]

theorem expandR_append (bs : List (List Char)) (xs ys : List (Nat × List Char)) :
    expandR bs (xs ++ ys) = expandR bs xs ++ expandR bs ys := by
  simp [expandR]

theorem containsSub_infix_mono {pat s u : List Char}
    (h : containsSub pat s = false) (hu : u <:+: s) :
    containsSub pat u = false := by
  cases hcu : containsSub pat u with
  | false => rfl
  | true =>
    rw [(containsSub_iff_occurs pat s).mpr
      (((containsSub_iff_occurs pat u).mp hcu).trans hu)] at h
    cases h

theorem isDigitChar_ne_bq {c : Char} (h : isDigitChar c = true) :
    (c == bq) = false := by
  cases hcb : c == bq with
  | false => rfl
  | true =>
    have hce : c = bq := by simpa using hcb
    subst hce
    exact absurd h (by decide)

theorem all_not_bq_mem {l : List Char} (hall : l.all (fun c => !(c == bq)) = true)
    {c : Char} (hc : c ∈ l) : (c == bq) = false := by
  have := List.all_eq_true.mp hall c hc
  simpa using this

/-- Placeholders contain no backtick. -/
theorem phC_no_bq (k : Nat) {c : Char} (hc : c ∈ phC k) : (c == bq) = false := by
  simp only [phC, List.mem_append] at hc
  rcases hc with (h | h) | h
  · exact all_not_bq_mem (by decide) h
  · exact isDigitChar_ne_bq (natDigits_digits k c h)
  · exact all_not_bq_mem (by decide) h

theorem phC_ne_nil (k : Nat) : phC k ≠ [] := by
  intro h
  simp only [phC] at h
  rcases List.append_eq_nil.mp (List.append_eq_nil.mp h).1 with ⟨h4, _⟩
  exact absurd h4 (by decide)

theorem get?_of_store_extension {acc : List (List Char)} {m : List Char}
    {bs : List (List Char)} (h : (acc ++ [m]) <+: bs) :
    bs.get? acc.length = some m := by
  obtain ⟨tail, htail⟩ := h
  subst htail
  rw [List.append_assoc, List.get?_append_right (le_refl acc.length), Nat.sub_self]
  rfl

theorem getLast?_append_ne {a b : List Char} (hb : b ≠ []) :
    (a ++ b).getLast? = b.getLast? := by
  induction a with
  | nil => rfl
  | cons x a' ih =>
    have hne : a' ++ b ≠ [] := by
      intro hz
      exact hb (List.append_eq_nil.mp hz).2
    rw [List.cons_append]
    cases hab : a' ++ b with
    | nil => exact absurd hab hne
    | cons y t =>
      rw [List.getLast?_cons_cons, ← hab, ih]

theorem prefixOf_append_false {a : List Char} (b : List Char)
    (ha : containsSub tokCB a = false) (hl : a.getLast? = some bq) :
    tokCB.isPrefixOf (a ++ b) = false := by
  cases hp : tokCB.isPrefixOf (a ++ b) with
  | false => rfl
  | true =>
    exfalso
    have hpre : tokCB <+: a ++ b := List.isPrefixOf_iff_prefix.mp hp
    by_cases hlen : tokCB.length ≤ a.length
    · have hta : tokCB <+: a :=
        List.prefix_of_prefix_length_le hpre (List.prefix_append a b) hlen
      rw [containsSub_of_leading (List.isPrefixOf_iff_prefix.mpr hta)] at ha
      cases ha
    · have hap : a <+: tokCB :=
        List.prefix_of_prefix_length_le (List.prefix_append a b) hpre (by omega)
      have hmem : bq ∈ a := mem_of_getLast? hl
      exact absurd (hap.subset hmem) (by decide)

/-- Concatenation after a backtick cannot create a fresh placeholder token. -/
theorem clean_append_of_last_bq :
    ∀ (a b : List Char), containsSub tokCB a = false →
      containsSub tokCB b = false → a.getLast? = some bq →
      containsSub tokCB (a ++ b) = false := by
  intro a
  induction a with
  | nil => intro b _ _ hl; simp at hl
  | cons x a' ih =>
    intro b ha hb hl
    rw [List.cons_append]
    have hstep : containsSub tokCB (x :: (a' ++ b)) =
        (tokCB.isPrefixOf (x :: (a' ++ b)) || containsSub tokCB (a' ++ b)) := rfl
    rw [hstep]
    have hp : tokCB.isPrefixOf (x :: a' ++ b) = false :=
      prefixOf_append_false b ha hl
    rw [show tokCB.isPrefixOf (x :: (a' ++ b)) = false from by
      rw [← List.cons_append]; exact hp, Bool.false_or]
    cases a' with
    | nil => simpa using hb
    | cons y a'' =>
      exact ih b (containsSub_tail ha) hb (by simpa using hl)

/-- Any split of a concatenation lands in one of the two parts. -/
theorem append_split : ∀ (m rest u v : List Char), m ++ rest = u ++ v →
    (∃ w, u = m ++ w ∧ rest = w ++ v) ∨ (∃ w, m = u ++ w ∧ w ++ rest = v) := by
  intro m
  induction m with
  | nil =>
    intro rest u v h
    exact Or.inl ⟨u, rfl, h⟩
  | cons c m' ih =>
    intro rest u v h
    cases u with
    | nil =>
      exact Or.inr ⟨c :: m', rfl, h⟩
    | cons x u' =>
      simp only [List.cons_append, List.cons.injEq] at h
      obtain ⟨hc, ht⟩ := h
      subst hc
      rcases ih rest u' v ht with ⟨w, hw1, hw2⟩ | ⟨w, hw1, hw2⟩
      · exact Or.inl ⟨w, by rw [List.cons_append, hw1], hw2⟩
      · exact Or.inr ⟨w, by rw [List.cons_append, hw1], hw2⟩

/-! #### Decomposition of the span matchers -/

theorem findRunSplit_decomp {f : Char} {L : Nat} :
    ∀ {input content rest : List Char},
      findRunSplit f L input = some (content, rest) →
      content ++ (List.replicate L f ++ rest) = input := by
  intro input
  induction input with
  | nil =>
    intro content rest h
    unfold findRunSplit at h
    by_cases hp : (List.replicate L f).isPrefixOf ([] : List Char) = true
    · rw [if_pos hp] at h
      have hL : List.replicate L f = [] := by
        simpa using List.isPrefixOf_iff_prefix.mp hp
      injection h with h'
      injection h' with h1 h2
      subst h1; subst h2
      simp [hL]
    · rw [if_neg hp] at h
      cases h
  | cons c t ih =>
    intro content rest h
    unfold findRunSplit at h
    by_cases hp : (List.replicate L f).isPrefixOf (c :: t) = true
    · rw [if_pos hp] at h
      injection h with h'
      injection h' with h1 h2
      subst h1; subst h2
      simp only [List.nil_append]
      have := isPrefixOf_append_drop hp
      simpa using this
    · rw [if_neg hp] at h
      cases hfr : findRunSplit f L t with
      | none => rw [hfr] at h; cases h
      | some p =>
        rw [hfr] at h
        simp only [Option.map_some'] at h
        injection h with h'
        have hrec := @ih p.1 p.2 (by rw [hfr])
        have h1 : content = c :: p.1 := (congrArg Prod.fst h').symm
        have h2 : rest = p.2 := (congrArg Prod.snd h').symm
        subst h1; subst h2
        simpa using congrArg (c :: ·) hrec

theorem fenceCloseGo_decomp {f : Char} {n : Nat} {tail : List Char} :
    ∀ {k L : Nat} {content rest : List Char}, k ≤ n - 2 →
      fenceCloseGo f n tail k = some (L, content, rest) →
      3 ≤ L ∧ L ≤ n ∧
      content ++ (List.replicate L f ++ rest) = List.replicate (n - L) f ++ tail := by
  intro k
  induction k with
  | zero => intro L content rest _ h; cases h
  | succ lm2 ih =>
    intro L content rest hk h
    unfold fenceCloseGo at h
    cases hfr : findRunSplit f (lm2 + 3) (List.replicate (n - (lm2 + 3)) f ++ tail) with
    | some p =>
      obtain ⟨pc, pr⟩ := p
      rw [hfr] at h
      injection h with h'
      injection h' with h1 h2
      injection h2 with h2a h2b
      subst h1; subst h2a; subst h2b
      refine ⟨by omega, by omega, ?_⟩
      exact findRunSplit_decomp hfr
    | none =>
      rw [hfr] at h
      exact ih (by omega) h

theorem takeWhile_eq_replicate (c0 : Char) (s : List Char) :
    s.takeWhile (· == c0) = List.replicate (s.takeWhile (· == c0)).length c0 := by
  apply List.eq_replicate_of_mem
  intro b hb
  have := mem_takeWhile_pred hb
  simpa using this

theorem take_of_leading {a s : List Char} (h : a <+: s) : s.take a.length = a :=
  (List.prefix_iff_eq_take.mp h).symm

/-- A fence match decomposes the subject: the matched text followed by the
rest is the subject itself, and the match is non-empty. -/
theorem fencedTry_decomp {b : Bool} {s m rest : List Char}
    (h : fencedTry b s = some (m, rest)) : m ++ rest = s ∧ m ≠ [] := by
  unfold fencedTry at h
  cases s with
  | nil => cases h
  | cons c t =>
    dsimp only at h
    by_cases hc : (c == bq || (b && c == '~')) = true
    · rw [if_pos hc] at h
      cases hfc : fenceClose c ((c :: t).takeWhile (· == c)).length
          ((c :: t).drop ((c :: t).takeWhile (· == c)).length) with
      | none => rw [hfc] at h; cases h
      | some p =>
        rw [hfc] at h
        obtain ⟨L, content, rest'⟩ := p
        simp only at h
        injection h with h'
        injection h' with h1 h2
        unfold fenceClose at hfc
        set n := ((c :: t).takeWhile (· == c)).length with hn
        by_cases hn3 : n < 3
        · rw [if_pos hn3] at hfc; cases hfc
        · rw [if_neg hn3] at hfc
          obtain ⟨hL3, hLn, hdec⟩ := fenceCloseGo_decomp (le_refl _) hfc
          constructor
          · rw [← h1, ← h2]
            have hsplit : (c :: t).take n ++ (c :: t).drop n = c :: t :=
              List.take_append_drop n (c :: t)
            have hrun : (c :: t).take n = List.replicate n c := by
              rw [hn]
              rw [take_of_leading (List.takeWhile_prefix _)]
              exact takeWhile_eq_replicate c (c :: t)
            calc (List.replicate L c ++ content ++ List.replicate L c) ++ rest'
                = List.replicate L c ++ (content ++ (List.replicate L c ++ rest')) := by
                  simp [List.append_assoc]
              _ = List.replicate L c ++ (List.replicate (n - L) c ++ (c :: t).drop n) := by
                  rw [hdec]
              _ = List.replicate n c ++ (c :: t).drop n := by
                  rw [← List.append_assoc, ← List.replicate_add,
                    show L + (n - L) = n from by omega]
              _ = (c :: t).take n ++ (c :: t).drop n := by rw [hrun]
              _ = c :: t := hsplit
          · rw [← h1]
            have : List.replicate L c ≠ [] := by
              intro hy
              have := congrArg List.length hy
              simp at this
              omega
            simp [this]
    · rw [if_neg hc] at h
      cases h

/-- An inline-code match decomposes the subject; the match is non-empty,
newline-free and ends with a backtick. -/
theorem inlineTry_decomp {s m rest : List Char}
    (h : inlineTry s = some (m, rest)) :
    m ++ rest = s ∧ m ≠ [] ∧ '\n' ∉ m ∧ m.getLast? = some bq := by
  unfold inlineTry at h
  cases s with
  | nil => cases h
  | cons c t =>
    dsimp only at h
    by_cases hc : (c == bq) = true
    · rw [if_pos hc] at h
      set run := (c :: t).takeWhile (· == bq) with hrun
      set n := run.length with hn
      set afterRun := (c :: t).drop n with hafter
      set content := afterRun.takeWhile (fun d => d != bq && d != '\n') with hcont
      by_cases hce : content.isEmpty = true
      · rw [if_pos hce] at h; cases h
      · rw [if_neg hce] at h
        by_cases hpre : (List.replicate n bq).isPrefixOf
            (afterRun.drop content.length) = true
        · rw [if_pos hpre] at h
          injection h with h'
          injection h' with h1 h2
          have hs1 : run ++ afterRun = c :: t := by
            rw [hafter, hn, hrun]
            nth_rewrite 1 [← take_of_leading (List.takeWhile_prefix (l := c :: t)
              (p := (· == bq)))]
            exact List.take_append_drop _ _
          have hs2 : content ++ afterRun.drop content.length = afterRun := by
            nth_rewrite 2 [← List.take_append_drop content.length afterRun]
            rw [take_of_leading (hcont ▸ List.takeWhile_prefix _)]
          have hs3 : List.replicate n bq ++
              (afterRun.drop content.length).drop n = afterRun.drop content.length := by
            have := isPrefixOf_append_drop hpre
            simpa using this
          refine ⟨?_, ?_, ?_, ?_⟩
          · rw [← h1, ← h2]
            calc (run ++ content ++ List.replicate n bq) ++
                  (afterRun.drop content.length).drop n
                = run ++ (content ++ (List.replicate n bq ++
                    (afterRun.drop content.length).drop n)) := by
                  simp [List.append_assoc]
              _ = run ++ (content ++ afterRun.drop content.length) := by rw [hs3]
              _ = run ++ afterRun := by rw [hs2]
              _ = c :: t := hs1
          · rw [← h1]
            have hrne : run ≠ [] := by
              rw [hrun]
              simp [List.takeWhile, hc]
            simp [hrne]
          · rw [← h1]
            intro hmem
            rcases List.mem_append.mp hmem with hm | hm
            · rcases List.mem_append.mp hm with hm | hm
              · have := mem_takeWhile_pred (hrun ▸ hm)
                simp [bq] at this
              · have := mem_takeWhile_pred (hcont ▸ hm)
                simp at this
            · have := List.eq_of_mem_replicate hm
              simp [bq] at this
          · rw [← h1]
            have hnn : n ≠ 0 := by
              rw [hn, hrun]
              simp [List.takeWhile_cons, hc]
            cases hnv : n with
            | zero => exact absurd hnv hnn
            | succ nn =>
              rw [getLast?_append_ne (by simp [hnv]),
                List.replicate_succ', getLast?_append_ne (by simp)]
              rfl
        · rw [if_neg hpre] at h; cases h
    · rw [if_neg hc] at h; cases h

/-- A text ending in a backtick that starts a flattened piece list ends inside
a literal: it covers some whole pieces, one placeholder, and part of that
placeholder's literal. -/
theorem msplit : ∀ (ps : List (Nat × List Char)) (m rest : List Char),
    m ++ rest = flattenR ps → m ≠ [] → m.getLast? = some bq →
    ∃ (front : List (Nat × List Char)) (k : Nat) (litpart litrest : List Char)
      (psrest : List (Nat × List Char)),
      ps = front ++ (k, litpart ++ litrest) :: psrest ∧
      m = flattenR front ++ (phC k ++ litpart) ∧
      rest = litrest ++ flattenR psrest ∧
      litpart ≠ [] ∧ litpart.getLast? = some bq := by
  intro ps
  induction ps with
  | nil =>
    intro m rest h hne _
    have h0 : m ++ rest = [] := by simpa [flattenR] using h
    exact absurd (List.append_eq_nil.mp h0).1 hne
  | cons p ps₂ ih =>
    intro m rest h hne hlast
    rw [flattenR_cons] at h
    rcases append_split m rest (phC p.1) (p.2 ++ flattenR ps₂) h with
      ⟨w, hw1, hw2⟩ | ⟨w, hw1, hw2⟩
    · exfalso
      have hmem : bq ∈ phC p.1 := by
        rw [hw1]
        exact List.mem_append.mpr (Or.inl (mem_of_getLast? hlast))
      have := phC_no_bq p.1 hmem
      simp at this
    · rcases append_split w rest p.2 (flattenR ps₂) hw2 with
        ⟨g, hg1, hg2⟩ | ⟨g, hg1, hg2⟩
      · have hwne : w ≠ [] := by
          intro hz
          subst hz
          rw [List.append_nil] at hw1
          have hmem : bq ∈ phC p.1 := by
            rw [← hw1]; exact mem_of_getLast? hlast
          have := phC_no_bq p.1 hmem
          simp at this
        refine ⟨[], p.1, w, g, ps₂, ?_, ?_, hg2, hwne, ?_⟩
        · rw [List.nil_append, ← hg1]
        · simpa [flattenR] using hw1
        · rw [hw1] at hlast
          rwa [getLast?_append_ne hwne] at hlast
      · by_cases hgnil : g = []
        · subst hgnil
          rw [List.append_nil] at hg1
          rw [List.nil_append] at hg2
          have hwne : w ≠ [] := by
            intro hz
            subst hz
            rw [List.append_nil] at hw1
            have hmem : bq ∈ phC p.1 := by
              rw [← hw1]; exact mem_of_getLast? hlast
            have := phC_no_bq p.1 hmem
            simp at this
          refine ⟨[], p.1, w, [], ps₂, ?_, ?_, ?_, hwne, ?_⟩
          · rw [List.nil_append, List.append_nil, hg1]
          · simpa [flattenR] using hw1
          · simpa using hg2
          · rw [hw1] at hlast
            rwa [getLast?_append_ne hwne] at hlast
        · have hglast : g.getLast? = some bq := by
            have h1 : m = (phC p.1 ++ p.2) ++ g := by
              rw [hw1, hg1, List.append_assoc]
            rw [h1, getLast?_append_ne hgnil] at hlast
            exact hlast
          rcases ih g rest hg2 hgnil hglast with
            ⟨front', k, litpart, litrest, psrest, hps, hm, hrest, hlp, hlpl⟩
          refine ⟨p :: front', k, litpart, litrest, psrest, ?_, ?_, hrest, hlp, hlpl⟩
          · rw [List.cons_append, hps]
          · rw [hw1, hg1, hm, flattenR_cons]
            simp [List.append_assoc]

/-! #### Scanner step equations -/

theorem protectInlineGo_nil (f : Nat) (acc : List (List Char)) :
    protectInlineGo (f + 1) [] acc = ([], acc) := by
  conv_lhs => rw [protectInlineGo.eq_def]
  try dsimp only
  try rfl

theorem protectInlineGo_step_none {f : Nat} {c : Char} {t : List Char}
    {acc : List (List Char)} (h : inlineTry (c :: t) = none) :
    protectInlineGo (f + 1) (c :: t) acc =
      (c :: (protectInlineGo f t acc).1, (protectInlineGo f t acc).2) := by
  conv_lhs => rw [protectInlineGo.eq_def]
  try dsimp only
  try rw [h]
  try dsimp only
  try rfl

theorem protectInlineGo_step_skip {f : Nat} {c : Char} {t m rest : List Char}
    {acc : List (List Char)} (h : inlineTry (c :: t) = some (m, rest))
    (hg : containsSub tokCB m = true) :
    protectInlineGo (f + 1) (c :: t) acc =
      (m ++ (protectInlineGo f rest acc).1, (protectInlineGo f rest acc).2) := by
  conv_lhs => rw [protectInlineGo.eq_def]
  try dsimp only
  try rw [h]
  try dsimp only
  try rw [if_pos hg]
  try rfl

theorem protectInlineGo_step_mask {f : Nat} {c : Char} {t m rest : List Char}
    {acc : List (List Char)} (h : inlineTry (c :: t) = some (m, rest))
    (hg : containsSub tokCB m = false) :
    protectInlineGo (f + 1) (c :: t) acc =
      (phC acc.length ++ (protectInlineGo f rest (acc ++ [m])).1,
       (protectInlineGo f rest (acc ++ [m])).2) := by
  conv_lhs => rw [protectInlineGo.eq_def]
  try dsimp only
  try rw [h]
  try dsimp only
  try rw [if_neg (by simp [hg])]
  try rfl

/-- The inline scanner copies a backtick-free prefix verbatim. -/
theorem protectInlineGo_copy :
    ∀ (w : List Char) (f : Nat) (v : List Char) (acc : List (List Char)),
      (∀ c ∈ w, (c == bq) = false) →
      protectInlineGo (w.length + f) (w ++ v) acc =
        (w ++ (protectInlineGo f v acc).1, (protectInlineGo f v acc).2) := by
  intro w
  induction w with
  | nil =>
    intro f v acc _
    simp
  | cons c w' ih =>
    intro f v acc hw
    have hcbq : (c == bq) = false := hw c (by simp)
    have hit : inlineTry (c :: (w' ++ v)) = none := by
      unfold inlineTry
      dsimp only
      rw [if_neg (by simp [hcbq])]
    have hfe : (c :: w').length + f = (w'.length + f) + 1 := by
      simp only [List.length_cons]
      omega
    rw [hfe, List.cons_append, protectInlineGo_step_none hit,
      ih f v acc (fun d hd => hw d (by simp [hd]))]
    simp

theorem protectFencedGo_nil (f : Nat) (b : Bool) (acc : List (List Char)) :
    protectFencedGo (f + 1) b [] acc = ([], acc) := by
  conv_lhs => rw [protectFencedGo.eq_def]
  try dsimp only
  try rfl

theorem protectFencedGo_step1 {f : Nat} {first : Bool} {c : Char}
    {t m rest : List Char} {acc : List (List Char)}
    (hv : (if first then fencedTry false (c :: t) else none) = some (m, rest)) :
    protectFencedGo (f + 1) first (c :: t) acc =
      (phC acc.length ++ (protectFencedGo f false rest (acc ++ [m])).1,
       (protectFencedGo f false rest (acc ++ [m])).2) := by
  conv_lhs => rw [protectFencedGo.eq_def]
  try dsimp only
  try rw [hv]
  try dsimp only
  try rfl

theorem protectFencedGo_step2 {f : Nat} {first : Bool} {c : Char}
    {t m rest : List Char} {acc : List (List Char)}
    (hv1 : (if first then fencedTry false (c :: t) else none) = none)
    (hv2 : (if c == '\n' then fencedTry false t else none) = some (m, rest)) :
    protectFencedGo (f + 1) first (c :: t) acc =
      ('\n' :: (phC acc.length ++ (protectFencedGo f false rest (acc ++ [m])).1),
       (protectFencedGo f false rest (acc ++ [m])).2) := by
  conv_lhs => rw [protectFencedGo.eq_def]
  try dsimp only
  try rw [hv1]
  try dsimp only
  try rw [hv2]
  try dsimp only
  try rfl

theorem protectFencedGo_step3 {f : Nat} {first : Bool} {c : Char}
    {t : List Char} {acc : List (List Char)}
    (hv1 : (if first then fencedTry false (c :: t) else none) = none)
    (hv2 : (if c == '\n' then fencedTry false t else none) = none) :
    protectFencedGo (f + 1) first (c :: t) acc =
      (c :: (protectFencedGo f false t acc).1,
       (protectFencedGo f false t acc).2) := by
  conv_lhs => rw [protectFencedGo.eq_def]
  try dsimp only
  try rw [hv1]
  try dsimp only
  try rw [hv2]
  try dsimp only
  try rfl

/-- The backtick-fence protection pass decomposes its output into a head that
is a prefix of the input and placeholder pieces whose expansion through any
extension of the produced block store reconstructs the input. -/
theorem protectFencedGo_decomp :
    ∀ (fuel : Nat) (s : List Char) (first : Bool) (acc : List (List Char)),
      s.length < fuel → containsSub tokCB s = false →
      ∃ hd ps,
        (protectFencedGo fuel first s acc).1 = hd ++ flattenR ps ∧
        hd <+: s ∧
        (∀ p ∈ ps, containsSub tokCB p.2 = false) ∧
        (∀ p ∈ ps, p.1 < (protectFencedGo fuel first s acc).2.length) ∧
        acc <+: (protectFencedGo fuel first s acc).2 ∧
        ∀ bs, (protectFencedGo fuel first s acc).2 <+: bs →
          hd ++ expandR bs ps = s := by
  intro fuel
  induction fuel with
  | zero => intro s first acc hf _; omega
  | succ f ih =>
    intro s first acc hf hcl
    cases s with
    | nil =>
      rw [protectFencedGo_nil]
      exact ⟨[], [], by simp [flattenR_nil], List.nil_prefix, by simp, by simp,
        List.prefix_refl acc, fun bs _ => by simp [expandR_nil]⟩
    | cons c t =>
      cases hv1 : (if first then fencedTry false (c :: t) else none) with
      | some pr =>
        obtain ⟨m, rest⟩ := pr
        have hft : fencedTry false (c :: t) = some (m, rest) := by
          cases first with
          | false => simp at hv1
          | true => simpa using hv1
        obtain ⟨hsplit, hmne⟩ := fencedTry_decomp hft
        have hlen : m.length + rest.length = t.length + 1 := by
          have := congrArg List.length hsplit
          simpa using this
        have hm1 : 1 ≤ m.length := by
          cases m with
          | nil => exact absurd rfl hmne
          | cons _ _ => simp
        have hf' : t.length + 1 < f + 1 := by simpa using hf
        have hrl : rest.length < f := by omega
        have hrcl : containsSub tokCB rest = false :=
          containsSub_infix_mono hcl (by
            rw [← hsplit]
            exact (List.suffix_append m rest).isInfix)
        obtain ⟨hd', ps', ho1, hopre, hocl, hoidx, hoacc, hoexp⟩ :=
          ih rest false (acc ++ [m]) hrl hrcl
        rw [protectFencedGo_step1 hv1]
        dsimp only
        refine ⟨[], (acc.length, hd') :: ps', ?_, List.nil_prefix, ?_, ?_, ?_, ?_⟩
        · rw [ho1, flattenR_cons]
          simp [List.append_assoc]
        · intro p hp
          rcases List.mem_cons.mp hp with he | hm2
          · subst he
            exact containsSub_infix_mono hrcl hopre.isInfix
          · exact hocl p hm2
        · intro p hp
          rcases List.mem_cons.mp hp with he | hm2
          · subst he
            dsimp only
            have h1 := hoacc.length_le
            simp only [List.length_append, List.length_singleton] at h1
            omega
          · exact hoidx p hm2
        · exact (List.prefix_append acc [m]).trans hoacc
        · intro bs hbs
          rw [expandR_cons]
          dsimp only
          rw [get?_of_store_extension (hoacc.trans hbs), Option.getD_some,
            show hd' ++ expandR bs ps' = rest from hoexp bs hbs]
          simpa using hsplit
      | none =>
        cases hv2 : (if c == '\n' then fencedTry false t else none) with
        | some pr =>
          obtain ⟨m, rest⟩ := pr
          have hcn : c = '\n' := by
            cases hb : (c == '\n') with
            | false => rw [hb] at hv2; simp at hv2
            | true => simpa using hb
          subst hcn
          have hft : fencedTry false t = some (m, rest) := by simpa using hv2
          obtain ⟨hsplit, hmne⟩ := fencedTry_decomp hft
          have hlen : m.length + rest.length = t.length := by
            have := congrArg List.length hsplit
            simpa using this
          have hm1 : 1 ≤ m.length := by
            cases m with
            | nil => exact absurd rfl hmne
            | cons _ _ => simp
          have hf' : t.length + 1 < f + 1 := by simpa using hf
          have hrl : rest.length < f := by omega
          have hrcl : containsSub tokCB rest = false :=
            containsSub_infix_mono hcl (by
              have h1 : rest <:+ t := by
                rw [← hsplit]
                exact List.suffix_append m rest
              exact (h1.trans (List.suffix_cons '\n' t)).isInfix)
          obtain ⟨hd', ps', ho1, hopre, hocl, hoidx, hoacc, hoexp⟩ :=
            ih rest false (acc ++ [m]) hrl hrcl
          rw [protectFencedGo_step2 hv1 hv2]
          dsimp only
          refine ⟨['\n'], (acc.length, hd') :: ps', ?_, ⟨t, rfl⟩, ?_, ?_, ?_, ?_⟩
          · rw [ho1, flattenR_cons]
            simp [List.append_assoc]
          · intro p hp
            rcases List.mem_cons.mp hp with he | hm2
            · subst he
              exact containsSub_infix_mono hrcl hopre.isInfix
            · exact hocl p hm2
          · intro p hp
            rcases List.mem_cons.mp hp with he | hm2
            · subst he
              dsimp only
              have h1 := hoacc.length_le
              simp only [List.length_append, List.length_singleton] at h1
              omega
            · exact hoidx p hm2
          · exact (List.prefix_append acc [m]).trans hoacc
          · intro bs hbs
            rw [expandR_cons]
            dsimp only
            rw [get?_of_store_extension (hoacc.trans hbs), Option.getD_some,
              show hd' ++ expandR bs ps' = rest from hoexp bs hbs]
            simp [hsplit]
        | none =>
          have hf' : t.length < f := by
            have h1 : t.length + 1 < f + 1 := by simpa using hf
            omega
          obtain ⟨hd', ps', ho1, hopre, hocl, hoidx, hoacc, hoexp⟩ :=
            ih t false acc hf' (containsSub_tail hcl)
          rw [protectFencedGo_step3 hv1 hv2]
          dsimp only
          refine ⟨c :: hd', ps', ?_, ?_, hocl, hoidx, hoacc, ?_⟩
          · rw [ho1]
            simp
          · rcases hopre with ⟨u, hu⟩
            exact ⟨u, by rw [List.cons_append, hu]⟩
          · intro bs hbs
            rw [List.cons_append, hoexp bs hbs]

/-- The inline protection pass maps a decomposed masked text to a decomposed
masked text with the same expansion through any extension of the final block
store. -/
theorem protectInlineGo_decomp :
    ∀ (fuel : Nat) (hd : List Char) (ps : List (Nat × List Char))
      (acc : List (List Char)),
      (hd ++ flattenR ps).length < fuel →
      containsSub tokCB hd = false →
      (∀ p ∈ ps, containsSub tokCB p.2 = false) →
      (∀ p ∈ ps, p.1 < acc.length) →
      ∃ hd' ps',
        (protectInlineGo fuel (hd ++ flattenR ps) acc).1 = hd' ++ flattenR ps' ∧
        hd' <+: hd ∧
        (∀ p ∈ ps', containsSub tokCB p.2 = false) ∧
        (∀ p ∈ ps',
          p.1 < (protectInlineGo fuel (hd ++ flattenR ps) acc).2.length) ∧
        acc <+: (protectInlineGo fuel (hd ++ flattenR ps) acc).2 ∧
        ∀ bs, (protectInlineGo fuel (hd ++ flattenR ps) acc).2 <+: bs →
          hd' ++ expandR bs ps' = hd ++ expandR bs ps := by
  intro fuel
  induction fuel using Nat.strong_induction_on
  rename_i fuel ih
  intro hd ps acc hf hhd hps hidx
  cases fuel with
  | zero => omega
  | succ f =>
  cases hd with
  | nil =>
    cases ps with
    | nil =>
      rw [show ([] : List Char) ++ flattenR [] = [] from rfl, protectInlineGo_nil]
      exact ⟨[], [], by simp [flattenR_nil], List.nil_prefix, by simp, by simp,
        List.prefix_refl acc, fun bs _ => by simp⟩
    | cons p ps₂ =>
      obtain ⟨k, lit⟩ := p
      rw [List.nil_append, flattenR_cons]
      dsimp only
      have hlen2 : (phC k).length + (lit ++ flattenR ps₂).length < f + 1 := by
        have h1 := hf
        rw [List.nil_append, flattenR_cons] at h1
        dsimp only at h1
        simpa [List.length_append] using h1
      have hphlen : 1 ≤ (phC k).length := by
        cases hpc : phC k with
        | nil => exact absurd hpc (phC_ne_nil k)
        | cons _ _ => simp
      have hflen : (phC k).length + (f + 1 - (phC k).length) = f + 1 := by omega
      rw [← hflen,
        protectInlineGo_copy (phC k) (f + 1 - (phC k).length)
          (lit ++ flattenR ps₂) acc (fun d hdm => phC_no_bq k hdm)]
      dsimp only
      obtain ⟨hd'', ps'', ho1, hopre, hocl, hoidx, hoacc, hoexp⟩ :=
        ih (f + 1 - (phC k).length) (by omega) lit ps₂ acc (by omega)
          (hps (k, lit) (by simp))
          (fun p hp => hps p (by simp [hp]))
          (fun p hp => hidx p (by simp [hp]))
      refine ⟨[], (k, hd'') :: ps'', ?_, List.nil_prefix, ?_, ?_, hoacc, ?_⟩
      · rw [ho1, flattenR_cons]
        simp [List.append_assoc]
      · intro p hp
        rcases List.mem_cons.mp hp with he | hm2
        · subst he
          exact containsSub_infix_mono (hps (k, lit) (by simp)) hopre.isInfix
        · exact hocl p hm2
      · intro p hp
        rcases List.mem_cons.mp hp with he | hm2
        · subst he
          dsimp only
          have h1 : k < acc.length := by
            have := hidx (k, lit) (by simp)
            simpa using this
          have h2 := hoacc.length_le
          omega
        · exact hoidx p hm2
      · intro bs hbs
        rw [expandR_cons, expandR_cons]
        dsimp only
        rw [show hd'' ++ expandR bs ps'' = lit ++ expandR bs ps₂ from hoexp bs hbs]
  | cons c hd₂ =>
    rw [List.cons_append]
    cases hit : inlineTry (c :: (hd₂ ++ flattenR ps)) with
    | none =>
      rw [protectInlineGo_step_none hit]
      dsimp only
      have hf' : (hd₂ ++ flattenR ps).length < f := by
        have h1 := hf
        simp only [List.cons_append, List.length_cons] at h1
        omega
      obtain ⟨hd'', ps'', ho1, hopre, hocl, hoidx, hoacc, hoexp⟩ :=
        ih f (by omega) hd₂ ps acc hf' (containsSub_tail hhd) hps hidx
      refine ⟨c :: hd'', ps'', ?_, ?_, hocl, hoidx, hoacc, ?_⟩
      · rw [ho1]
        simp
      · rcases hopre with ⟨u, hu⟩
        exact ⟨u, by rw [List.cons_append, hu]⟩
      · intro bs hbs
        simp only [List.cons_append]
        rw [hoexp bs hbs]
    | some pr =>
      obtain ⟨m, rest⟩ := pr
      obtain ⟨hsplit, hmne, hmnl, hml⟩ := inlineTry_decomp hit
      have hm1 : 1 ≤ m.length := by
        cases m with
        | nil => exact absurd rfl hmne
        | cons _ _ => simp
      have hf' : rest.length < f := by
        have h1 := congrArg List.length hsplit
        have h2 := hf
        simp only [List.length_append, List.length_cons, List.cons_append] at h1 h2
        omega
      cases hg : containsSub tokCB m with
      | true =>
        rw [protectInlineGo_step_skip hit hg]
        dsimp only
        rcases append_split m rest (c :: hd₂) (flattenR ps)
            (by rw [hsplit, List.cons_append]) with ⟨w, hw1, hw2⟩ | ⟨w, hw1, hw2⟩
        · exfalso
          have hclm : containsSub tokCB m = false :=
            containsSub_infix_mono hhd ⟨[], w, by rw [List.nil_append, ← hw1]⟩
          rw [hclm] at hg
          cases hg
        · by_cases hwz : w = []
          · exfalso
            subst hwz
            rw [List.append_nil] at hw1
            have hclm : containsSub tokCB m = false := by
              rw [hw1]
              exact hhd
            rw [hclm] at hg
            cases hg
          · have hwlast : w.getLast? = some bq := by
              rw [hw1] at hml
              rwa [getLast?_append_ne hwz] at hml
            obtain ⟨front, k, litpart, litrest, psrest, hps_eq, hw_eq, hrest_eq,
              hlpne, hlplast⟩ := msplit ps w rest hw2 hwz hwlast
            have hmemk : (k, litpart ++ litrest) ∈ ps := by
              rw [hps_eq]
              exact List.mem_append.mpr (Or.inr (List.mem_cons_self _ _))
            have hlitcl : containsSub tokCB (litpart ++ litrest) = false := by
              have := hps _ hmemk
              simpa using this
            have hlrcl : containsSub tokCB litrest = false :=
              containsSub_infix_mono hlitcl
                (List.suffix_append litpart litrest).isInfix
            rw [hrest_eq]
            obtain ⟨hd'', ps'', ho1, hopre, hocl, hoidx, hoacc, hoexp⟩ :=
              ih f (by omega) litrest psrest acc
                (by rw [← hrest_eq]; exact hf') hlrcl
                (fun p hp => hps p (by
                  rw [hps_eq]
                  exact List.mem_append.mpr (Or.inr (List.mem_cons_of_mem _ hp))))
                (fun p hp => hidx p (by
                  rw [hps_eq]
                  exact List.mem_append.mpr (Or.inr (List.mem_cons_of_mem _ hp))))
            refine ⟨c :: hd₂, front ++ (k, litpart ++ hd'') :: ps'', ?_,
              List.prefix_refl _, ?_, ?_, hoacc, ?_⟩
            · rw [ho1, hw1, hw_eq, flattenR_append, flattenR_cons]
              simp [List.append_assoc]
            · intro p hp
              rcases List.mem_append.mp hp with hm2 | hm2
              · exact hps p (by
                  rw [hps_eq]
                  exact List.mem_append.mpr (Or.inl hm2))
              · rcases List.mem_cons.mp hm2 with he | hm3
                · subst he
                  dsimp only
                  apply clean_append_of_last_bq
                  · exact containsSub_infix_mono hlitcl
                      (List.prefix_append litpart litrest).isInfix
                  · exact containsSub_infix_mono hlrcl hopre.isInfix
                  · exact hlplast
                · exact hocl p hm3
            · intro p hp
              rcases List.mem_append.mp hp with hm2 | hm2
              · have h1 := hidx p (by
                  rw [hps_eq]
                  exact List.mem_append.mpr (Or.inl hm2))
                have h2 := hoacc.length_le
                omega
              · rcases List.mem_cons.mp hm2 with he | hm3
                · subst he
                  dsimp only
                  have h1 : k < acc.length := by
                    have := hidx _ hmemk
                    simpa using this
                  have h2 := hoacc.length_le
                  omega
                · exact hoidx p hm3
            · intro bs hbs
              rw [hps_eq]
              simp only [expandR_append, expandR_cons, List.append_assoc]
              rw [show hd'' ++ expandR bs ps'' = litrest ++ expandR bs psrest from
                hoexp bs hbs]
      | false =>
        rw [protectInlineGo_step_mask hit hg]
        dsimp only
        have hsp2 : ∃ hdrest, c :: hd₂ = m ++ hdrest ∧
            rest = hdrest ++ flattenR ps := by
          rcases append_split m rest (c :: hd₂) (flattenR ps)
              (by rw [hsplit, List.cons_append]) with ⟨w, hw1, hw2⟩ | ⟨w, hw1, hw2⟩
          · exact ⟨w, hw1, hw2⟩
          · cases w with
            | nil =>
              refine ⟨[], by simp [hw1], ?_⟩
              rw [List.nil_append]
              rw [List.nil_append] at hw2
              exact hw2
            | cons w0 wt =>
              exfalso
              cases hps0 : ps with
              | nil =>
                rw [hps0] at hw2
                simp [flattenR_nil] at hw2
              | cons p₀ ps₂ =>
                rw [hps0, flattenR_cons] at hw2
                rcases append_split (w0 :: wt) rest (phC p₀.1)
                    (p₀.2 ++ flattenR ps₂) hw2 with ⟨e, he1, he2⟩ | ⟨e, he1, he2⟩
                · have hwl : (w0 :: wt).getLast? = some bq := by
                    rw [hw1] at hml
                    rwa [getLast?_append_ne (by simp)] at hml
                  have hmem : bq ∈ phC p₀.1 := by
                    rw [he1]
                    exact List.mem_append.mpr (Or.inl (mem_of_getLast? hwl))
                  have := phC_no_bq p₀.1 hmem
                  simp at this
                · have hdirty : containsSub tokCB m = true := by
                    rw [hw1, he1]
                    apply containsSub_append_left
                    rw [phC, List.append_assoc, List.append_assoc]
                    exact containsSub_self_append tokCB _
                  rw [hdirty] at hg
                  cases hg
        obtain ⟨hdrest, hhd_eq, hrest_eq⟩ := hsp2
        have hdrcl : containsSub tokCB hdrest = false :=
          containsSub_infix_mono hhd (by
            rw [hhd_eq]
            exact (List.suffix_append m hdrest).isInfix)
        rw [hrest_eq]
        obtain ⟨hd'', ps'', ho1, hopre, hocl, hoidx, hoacc, hoexp⟩ :=
          ih f (by omega) hdrest ps (acc ++ [m])
            (by rw [← hrest_eq]; exact hf') hdrcl hps
            (fun p hp => by
              have h1 := hidx p hp
              have h2 : acc.length ≤ (acc ++ [m]).length := by simp
              omega)
        refine ⟨[], (acc.length, hd'') :: ps'', ?_, List.nil_prefix, ?_, ?_,
          ?_, ?_⟩
        · rw [ho1, flattenR_cons]
          simp [List.append_assoc]
        · intro p hp
          rcases List.mem_cons.mp hp with he | hm2
          · subst he
            exact containsSub_infix_mono hdrcl hopre.isInfix
          · exact hocl p hm2
        · intro p hp
          rcases List.mem_cons.mp hp with he | hm2
          · subst he
            dsimp only
            have h1 := hoacc.length_le
            simp only [List.length_append, List.length_singleton] at h1
            omega
          · exact hoidx p hm2
        · exact (List.prefix_append acc [m]).trans hoacc
        · intro bs hbs
          rw [expandR_cons]
          dsimp only
          rw [get?_of_store_extension (hoacc.trans hbs), Option.getD_some,
            show hd'' ++ expandR bs ps'' = hdrest ++ expandR bs ps from
              hoexp bs hbs]
          rw [List.nil_append, ← List.append_assoc, ← hhd_eq]

/-- C2 (corrected): for every document that does not contain the placeholder
token prefix `___CODE_BLOCK_`, masking all code regions with the two
span-protection passes and then restoring them through the produced span store
reproduces the document exactly. -/
theorem c2_roundtrip_clean (d : List Char)
    (h : containsSub tokCB d = false) :
    restoreBlocks (protect d).1 (protect d).2 = d := by
  obtain ⟨hdF, psF, hF1, hFpre, hFcl, hFidx, hFacc, hFexp⟩ :=
    protectFencedGo_decomp (d.length + 1) d true [] (by omega) h
  have hpd : protect d =
      protectInlineGo ((protectFencedGo (d.length + 1) true d []).1.length + 1)
        (protectFencedGo (d.length + 1) true d []).1
        (protectFencedGo (d.length + 1) true d []).2 := rfl
  obtain ⟨hdI, psI, hI1, hIpre, hIcl, hIidx, hIacc, hIexp⟩ :=
    protectInlineGo_decomp ((hdF ++ flattenR psF).length + 1) hdF psF
      (protectFencedGo (d.length + 1) true d []).2 (by omega)
      (containsSub_infix_mono h hFpre.isInfix) hFcl hFidx
  have hpro : protect d = protectInlineGo ((hdF ++ flattenR psF).length + 1)
      (hdF ++ flattenR psF) (protectFencedGo (d.length + 1) true d []).2 := by
    rw [hpd, hF1]
  have hdIcl : containsSub tokCB hdI = false :=
    containsSub_infix_mono (containsSub_infix_mono h hFpre.isInfix) hIpre.isInfix
  rw [hpro, hI1, restoreBlocks_piece hdI psI _ hdIcl hIcl,
    hIexp _ (List.prefix_refl _), hFexp _ hIacc]

/-- C2 (counterexample to the unconditional claim): a document that already
contains a placeholder-shaped token collides with the placeholder generated
for its inline code span, and restoration rewrites both occurrences. -/
theorem c2_roundtrip_counterexample :
    restoreBlocks (protect (str ("___CODE_BLOCK_0___ `x`"))).1
        (protect (str ("___CODE_BLOCK_0___ `x`"))).2 ≠
      str ("___CODE_BLOCK_0___ `x`") := by
  decide

theorem c2_roundtrip_clean_witness :
    containsSub tokCB (str ("a `b` c ~~~")) = false ∧
    restoreBlocks (protect (str ("a `b` c ~~~"))).1
        (protect (str ("a `b` c ~~~"))).2 = str ("a `b` c ~~~") :=
  ⟨by decide, c2_roundtrip_clean (str ("a `b` c ~~~")) (by decide)⟩

theorem c10_chat_invariants_amended_witness :
    ((⟨⟨"A", none⟩, "hi"⟩ : ChatMessage).content ≠ "") ∧
    chatGo ([str ("intro")] ++ [str ("@person name:A"), str ("hi")]) none [] [] =
      chatGo [str ("@person name:A"), str ("hi")] none [] [] ∧
    (parsePerson (str ("x:1"))).name = "Unknown" :=
  ⟨c10_chat_invariants_amended.1 ("@person name:A\nhi") ⟨⟨"A", none⟩, "hi"⟩
     (by decide),
   c10_chat_invariants_amended.2.1 [str ("intro")]
     [str ("@person name:A"), str ("hi")] [] [] (by decide),
   c10_chat_invariants_amended.2.2 (str ("x:1")) (by decide)⟩

end TBlog
